import Mathlib

/-!
Verification development for the goduf duplicate-file finder
(`goduf.go`, `sort.go`, `goduf-byinode_unix.go`, `goduf-byinode_fallback.go`,
`output.go`).

Shallow embedding conventions:

* A file on disk is a `FileObj`: the stat metadata (`FilePath`, `size` from
  `os.FileInfo.Size()`, `dev`/`ino` from the `syscall.Stat_t`) plus the byte
  content the kernel would serve on `os.Open` + reads.  `content = none`
  models a file whose `os.Open` fails; `content = some bs` models a readable
  file whose current byte stream is `bs` (which may disagree in length with
  the stat `size`, modelling mid-run truncation / short reads).
* SHA1 digests are modelled collision-free: the digest of a byte stream is
  the stream itself.  `hex.EncodeToString` is injective, so grouping by the
  hex string in the Go code is grouping by digest, which is grouping by the
  hashed byte sequence here.
* Go's `sort.Sort` (an unstable comparison sort) is modelled by
  `List.insertionSort` over the same comparison; everywhere the pipeline's
  behaviour depends on the sort result, the comparison keys are pairwise
  distinct, so every comparison sort produces the same list (proved where
  needed below).
* Go `map` iteration order is unspecified; maps are modelled as association
  lists in a canonical order, and order-independence of the final results is
  proved explicitly (claim C5).
* `uint`/`uint64` arithmetic wraps modulo `2^64` (Go's `uint` is 64-bit on
  the platforms of the two build variants); accumulations are taken `% U64`.
* The two OS build variants (`goduf-byinode_unix.go`,
  `goduf-byinode_fallback.go`) are embedded as one definition parameterised
  by `osH : Bool` (the value of `OSHasInodes()` for the selected variant).
-/

namespace Goduf

/-- `const medsumBytes = 128` (goduf.go:43). -/
def medsumBytes : Nat := 128

/-- `const minSizePartialChecksum = 49152` (goduf.go:44). -/
def minSizePartialChecksum : Nat := 49152

/-- `type sumType int` with `noChecksum`, `fullChecksum`, `partialChecksum`
(goduf.go:46-52). `partChecksum` renders the source's `partialChecksum`. -/
inductive sumType where
  | noChecksum
  | fullChecksum
  | partChecksum
deriving DecidableEq, Repr

/-- `type fileObj struct` (goduf.go:78-85) together with the file state the
OS serves for its path.  `PartialHash`/`Hash`/`needHash` are mutable caches
in the source; since hashing is a pure function of the file state here, the
caches are dropped and each hash is the pure function below. -/
structure FileObj where
  FilePath : String
  size : Nat
  dev : Nat
  ino : Nat
  content : Option (List Nat)
deriving DecidableEq, Repr

/-- `Options` (goduf.go:55-60). -/
structure Options where
  Summary : Bool
  OutToJSON : Bool
  SkipPartial : Bool
  IgnoreEmpty : Bool
deriving DecidableEq, Repr

/-- `ResultSet` (goduf.go:73-76). -/
structure ResultSet where
  Size : Nat
  Paths : List String
deriving DecidableEq, Repr

/-- `Results` (goduf.go:63-70); `RedundantDataSizeH` is a human-readable
rendering of `RedundantDataSize` (output layer) and is omitted. -/
structure Results where
  Groups : List ResultSet
  Duplicates : Nat
  NumberOfSets : Nat
  RedundantDataSize : Nat
  TotalFileCount : Nat
deriving DecidableEq, Repr

/-- Modulus of Go `uint`/`uint64` arithmetic. -/
def U64 : Nat := 2 ^ 64

/-- `func (fo *fileObj) Checksum() error` (goduf.go:147-165): open the file,
`io.Copy` the whole stream into SHA1; it is an error if the copied size does
not equal the stat size.  The digest is the full byte stream. -/
def FileObj.Checksum (fo : FileObj) : Option (List Nat) :=
  match fo.content with
  | none => none
  | some bs => if bs.length = fo.size then some bs else none

/-- `func (fo *fileObj) partialChecksum() error` (goduf.go:168-193): read the
first `medsumBytes` bytes, seek to `end - medsumBytes`, read `medsumBytes`
more; `io.CopyN` fails iff fewer than `medsumBytes` bytes are available, so
the whole computation succeeds iff the stream holds at least `medsumBytes`
bytes, and the digest is first-128-bytes ++ last-128-bytes of the stream. -/
def FileObj.partChecksum (fo : FileObj) : Option (List Nat) :=
  match fo.content with
  | none => none
  | some bs =>
    if medsumBytes ≤ bs.length then
      some (bs.take medsumBytes ++ bs.drop (bs.length - medsumBytes))
    else none

/-- `func (fo fileObj) checksum(sType sumType) (string, error)`
(goduf.go:228-248), composed with `Sum` (goduf.go:196-205): the requested
digest, or `none` on a read error.  The source panics on `noChecksum`; that
value is never requested by the pipeline (see `findDupes` below). -/
def checksum (fo : FileObj) (sType : sumType) : Option (List Nat) :=
  match sType with
  | .partChecksum => fo.partChecksum
  | .fullChecksum => fo.Checksum
  | .noChecksum => none

/-- `func GetDevIno(fi os.FileInfo) (uint64, uint64)`: the unix build variant
returns the stat device/inode pair; the plan9/windows fallback returns
`(0, 0)` ("not supported"). `osH` is the value of `OSHasInodes()`. -/
def GetDevIno (osH : Bool) (fo : FileObj) : Nat × Nat :=
  if osH then (fo.dev, fo.ino) else (0, 0)

/-- Byte-wise lexicographic `≤` on character lists (the order underlying
Go's `<` on strings, restricted to the code points used here). -/
def charListLE : List Char → List Char → Bool
  | [], _ => true
  | _ :: _, [] => false
  | a :: as, b :: bs =>
    if a.toNat = b.toNat then charListLE as bs
    else decide (a.toNat < b.toNat)

/-- Go's `≤` on strings (`!(b < a)`), as lexicographic order on the
character sequence. -/
def strLE (a b : String) : Bool := charListLE a.toList b.toList

/-- `ByInode.Less` made total (`le a b := !Less(b, a)`): the unix variant
(goduf-byinode_unix.go) compares `(dev, ino)` lexicographically, the
fallback variant (goduf-byinode_fallback.go) compares `FilePath`. -/
def ByInodeLE (osH : Bool) (a b : FileObj) : Bool :=
  if osH then
    decide (a.dev < b.dev) || (decide (a.dev = b.dev) && decide (a.ino ≤ b.ino))
  else strLE a.FilePath b.FilePath

/-- `sort.Sort(ByInode(fileList))` (goduf.go:264, 289). -/
def sortByInode (osH : Bool) (l : List FileObj) : List FileObj :=
  List.insertionSort (fun a b => ByInodeLE osH a b = true) l

/-- `checksum` with the arguments flipped (the digest of a file under one
hash kind). -/
def digestOf (sType : sumType) (fo : FileObj) : Option (List Nat) :=
  checksum fo sType

/-- The `hashes` map of `findDupesChecksums` (goduf.go:286-303), read out
groupwise: one group per distinct digest occurring in the list (files whose
read fails are skipped: `myLog.Println(0, "Error:", err); continue`).  The
map's iteration order is unspecified in Go; the canonical order used here
lists digests in `List.dedup` order, and order-independence of the final
results is proved separately. -/
def groupsOf (sType : sumType) (l : List FileObj) : List (List FileObj) :=
  (l.filterMap (digestOf sType)).dedup.map
    (fun d => l.filter (fun f => digestOf sType f == some d))

/-- The `sType == fullChecksum` behaviour of
`findDupesChecksums` (goduf.go:283-329): sort by inode; in a dry run,
schedule full checksums and return the list as-is (the in-place sort is
visible to the caller, so the returned list is the sorted one); otherwise
group by full digest and keep the groups with at least 2 members. -/
def findDupesFullCk (osH : Bool) (dryRun : Bool) (fileList : List FileObj) :
    List (List FileObj) :=
  let sorted := sortByInode osH fileList
  if dryRun then [sorted]
  else (groupsOf .fullChecksum sorted).filter (fun l => decide (2 ≤ l.length))

/-- The `sType == partialChecksum` behaviour of `findDupesChecksums`
(goduf.go:283-329): group by partial digest; groups of ≥ 2 members
(`scheduleFull`) are escalated to a full-checksum pass restricted to that
group; in a dry run the escalation only schedules checksums and
`scheduleFull` itself is returned. -/
def findDupesPartCk (osH : Bool) (dryRun : Bool) (fileList : List FileObj) :
    List (List FileObj) :=
  let sorted := sortByInode osH fileList
  let scheduleFull :=
    (groupsOf .partChecksum sorted).filter (fun l => decide (2 ≤ l.length))
  if dryRun then scheduleFull
  else scheduleFull.flatMap (fun l => findDupesFullCk osH dryRun l)

/-- `func (fileList FileObjList) findDupesChecksums(sType, dryRun)`
(goduf.go:283-329), dispatching on `sType`.  The source never calls it with
`noChecksum` (the checksum helper would panic); that branch yields no
groups. -/
def findDupesChecksums (osH : Bool) (sType : sumType) (dryRun : Bool)
    (fileList : List FileObj) : List (List FileObj) :=
  match sType with
  | .partChecksum => findDupesPartCk osH dryRun fileList
  | .fullChecksum => findDupesFullCk osH dryRun fileList
  | .noChecksum => []

/-- The bucket-routing guard of `findDupes` (goduf.go:340):
`size > minSizePartialChecksum && !skipPartial`. -/
def usePartCk (skipPartial : Bool) (size : Nat) : Bool :=
  decide (minSizePartialChecksum < size) && !skipPartial

/-- The split of `data.sizeGroups` into `schedulePartial` and `scheduleFull`
performed by the loop at goduf.go:338-347 (one pass over the map; relative
order within each class preserved). -/
def schedulePartition (skipPartial : Bool)
    (sizeGroups : List (Nat × List FileObj)) :
    List (Nat × List FileObj) × List (Nat × List FileObj) :=
  sizeGroups.partition (fun p => usePartCk skipPartial p.1)

/-- `func (data *dataT) findDupes(skipPartial bool) foListList`
(goduf.go:332-365).  `computeSheduledChecksums` (goduf.go:253-273) only
precomputes per-file hash caches and logs errors; hashing is a pure function
of the file here, so those passes do not alter grouping.  The dry-run pass
over `schedulePartial` (building `schedulePartial2`, goduf.go:351-355) is
kept as the unused binding `schedP2`. -/
def findDupes (osH : Bool) (skipPartial : Bool)
    (sizeGroups : List (Nat × List FileObj)) : List (List FileObj) :=
  let part := schedulePartition skipPartial sizeGroups
  let schedP := part.1.map Prod.snd
  let schedF := part.2.map Prod.snd
  let _schedP2 := schedP.flatMap (fun l => findDupesChecksums osH .partChecksum true l)
  schedP.flatMap (fun l => findDupesChecksums osH .partChecksum false l)
    ++ schedF.flatMap (fun l => findDupesChecksums osH .fullChecksum false l)

/-- The scan of the hard-link removal loop (goduf.go:410-426): walk the
bucket keeping a set of seen `(dev, ino)` pairs; report the index of the
first record whose pair was already seen (`hardLinkIndex`), if any.  (In the
source `hardLinkIndex == 0` encodes "none found": index 0 can never be a
duplicate because the seen-set starts empty.) -/
def findHardLinkIdx (osH : Bool) :
    List (Nat × Nat) → Nat → List FileObj → Option Nat
  | _, _, [] => none
  | seen, i, fo :: rest =>
    if GetDevIno osH fo ∈ seen then some i
    else findHardLinkIdx osH (GetDevIno osH fo :: seen) (i + 1) rest

theorem findHardLinkIdx_lt {osH : Bool} :
    ∀ {seen : List (Nat × Nat)} {k : Nat} {l : List FileObj} {i : Nat},
      findHardLinkIdx osH seen k l = some i → k ≤ i ∧ i < k + l.length := by
  intro seen k l
  induction l generalizing seen k with
  | nil => intro i h; simp [findHardLinkIdx] at h
  | cons fo rest ih =>
    intro i h
    rw [List.length_cons]
    rw [findHardLinkIdx] at h
    by_cases hin : GetDevIno osH fo ∈ seen
    · rw [if_pos hin] at h
      injection h with h
      omega
    · rw [if_neg hin] at h
      have hr := ih h
      omega

/-- The repeat-until-no-duplicate loop of `initialCleanup`
(goduf.go:410-436) with explicit fuel (each iteration removes one record,
so `l.length` fuel always suffices; see `removeHardLinks`): find the first
hard-link duplicate, remove it (`copy` + truncate = `eraseIdx`), count it,
and rescan; stop when no duplicate remains. -/
def removeHardLinksAux (osH : Bool) : Nat → List FileObj → List FileObj × Nat
  | 0, l => (l, 0)
  | fuel + 1, l =>
    match findHardLinkIdx osH [] 0 l with
    | none => (l, 0)
    | some i =>
      let p := removeHardLinksAux osH fuel (l.eraseIdx i)
      (p.1, p.2 + 1)

/-- The hard-link removal loop of `initialCleanup` (goduf.go:410-436).
Returns the filtered bucket and the number of removals (the bucket's
contribution to `hardLinkCount`). -/
def removeHardLinks (osH : Bool) (l : List FileObj) : List FileObj × Nat :=
  removeHardLinksAux osH l.length l

/-- `func (data *dataT) initialCleanup() (hardLinkCount, uniqueSizeCount
int)` (goduf.go:388-448), over the size-bucket map in its (arbitrary,
here canonical) iteration order: buckets of fewer than 2 records are
deleted and counted; when `OSHasInodes()` the hard-link loop runs and, if
hard links were found (`p.2 > 0`) and fewer than 2 records remain, the
bucket is deleted and counted as well.  Returns
(remaining buckets, hardLinkCount, uniqueSizeCount). -/
def initialCleanup (osH : Bool) :
    List (Nat × List FileObj) → List (Nat × List FileObj) × Nat × Nat
  | [] => ([], 0, 0)
  | (s, l) :: rest =>
    let r := initialCleanup osH rest
    if l.length < 2 then (r.1, r.2.1, r.2.2 + 1)
    else if !osH then ((s, l) :: r.1, r.2.1, r.2.2)
    else
      let p := removeHardLinks osH l
      if 0 < p.2 ∧ p.1.length < 2 then (r.1, r.2.1 + p.2, r.2.2 + 1)
      else ((s, p.1) :: r.1, r.2.1 + p.2, r.2.2)

/-- Deletion of a key from the size-bucket map (`delete(data.sizeGroups,
0)`); on an association list with unique keys this removes the single
matching entry. -/
def removeKey (k : Nat) (gs : List (Nat × List FileObj)) :
    List (Nat × List FileObj) :=
  gs.filter (fun p => !(p.1 == k))

/-- `func (data *dataT) dropEmptyFiles(ignoreEmpty bool) (emptyCount int)`
(goduf.go:370-385): the size-0 bucket (if present) is always removed; with
`ignoreEmpty` its records are discarded and counted, otherwise they are
saved as `data.emptyFiles` when more than one.  Returns
(emptyFiles, remaining buckets, emptyCount). -/
def dropEmptyFiles (ignoreEmpty : Bool) (gs : List (Nat × List FileObj)) :
    List FileObj × List (Nat × List FileObj) × Nat :=
  match gs.lookup 0 with
  | none => ([], gs, 0)
  | some l =>
    if !ignoreEmpty then
      ((if 1 < l.length then l else []), removeKey 0 gs, 0)
    else ([], removeKey 0 gs, l.length)

/-- One insertion into `data.sizeGroups` (goduf.go:139-142): append the
record to its size's bucket, creating the bucket if absent.  The map is an
association list in first-creation order. -/
def addToSizeGroups (gs : List (Nat × List FileObj)) (fo : FileObj) :
    List (Nat × List FileObj) :=
  match gs with
  | [] => [(fo.size, [fo])]
  | (s, l) :: rest =>
    if s = fo.size then (s, l ++ [fo]) :: rest
    else (s, l) :: addToSizeGroups rest fo

/-- The size-bucket map built by `visit` over the walked records. -/
def groupBySize (records : List FileObj) : List (Nat × List FileObj) :=
  records.foldl addToSizeGroups []

/-- `byFilePathName.Less` made total (sort.go:37-43): `≤` on `FilePath`. -/
def byFilePathNameLE (a b : FileObj) : Bool := strLE a.FilePath b.FilePath

/-- The comparison key of `byGroupFileSize.Less` (sort.go:23-34): the first
member's size and path.  The source indexes `a[i][0]` and would panic on an
empty group; groups reaching the sort are never empty (proved below), and
an empty group gets a junk key here. -/
def groupKey (g : List FileObj) : Nat × String :=
  match g with
  | [] => (0, "")
  | f :: _ => (f.size, f.FilePath)

/-- `byGroupFileSize.Less` made total (sort.go:23-34): by size of the first
file, ties broken by its path. -/
def byGroupFileSizeLE (g1 g2 : List FileObj) : Bool :=
  if (groupKey g1).1 = (groupKey g2).1 then strLE (groupKey g1).2 (groupKey g2).2
  else decide ((groupKey g1).1 ≤ (groupKey g2).1)

/-- The per-group step of the result loop (goduf.go:520-531): take the
common size from the first member, add `size * (len - 1)` to the redundant
total (uint64 arithmetic), append one `ResultSet`, and count every member in
`Duplicates` (uint arithmetic; `len` unit increments are folded into one
addition mod `U64`).  The source indexes `l[0]` and would panic on an empty
group; that case (unreachable, proved below) leaves the accumulator
unchanged. -/
def addResult (res : Results) (l : List FileObj) : Results :=
  match l with
  | [] => res
  | f :: _ =>
    { res with
      RedundantDataSize := (res.RedundantDataSize + f.size * (l.length - 1)) % U64
      Duplicates := (res.Duplicates + l.length) % U64
      Groups := res.Groups ++ [{ Size := f.size, Paths := l.map FileObj.FilePath }] }

/-- `sort.Sort(byFilePathName(l))` (goduf.go:514-516). -/
def sortPaths (l : List FileObj) : List FileObj :=
  List.insertionSort (fun a b => byFilePathNameLE a b = true) l

/-- The sorting tail of `duf` (goduf.go:513-518): sort each group's members
by path, then sort the groups by (size, first path). -/
def sortGroups (result : List (List FileObj)) : List (List FileObj) :=
  (result.map sortPaths).insertionSort
    (fun g1 g2 => byGroupFileSizeLE g1 g2 = true)

/-- The result-assembly tail of `duf` (goduf.go:508-534): sort each group's
members by path, sort the groups by (size, first path), then fold the groups
into `Results`; `NumberOfSets` is the number of groups and `TotalFileCount`
is the walk counter `data.cmpt`. -/
def assembleResults (cmpt : Nat) (result : List (List FileObj)) : Results :=
  let res := (sortGroups result).foldl addResult
    { Groups := [], Duplicates := 0, NumberOfSets := 0,
      RedundantDataSize := 0, TotalFileCount := 0 }
  { res with NumberOfSets := res.Groups.length % U64, TotalFileCount := cmpt % U64 }

/-- The match-group list of `duf` (goduf.go:500-504): the empty-file group
(when nonempty) followed by the checksum-stage groups, starting from the
walked records: bucket by size, drop/capture empty files, remove unique
sizes and hard links, then `findDupes`. -/
def dupeGroups (osH : Bool) (options : Options) (records : List FileObj) :
    List (List FileObj) :=
  let d := dropEmptyFiles options.IgnoreEmpty (groupBySize records)
  let c := initialCleanup osH d.2.1
  (if 0 < d.1.length then [d.1] else []) ++ findDupes osH options.SkipPartial c.1

/-- `func duf(dirs []string, options Options) (Results, error)`
(goduf.go:450-537) from the point where the walked records are in hand
(`cmpt` is the regular-file counter `data.cmpt`). -/
def dufCore (osH : Bool) (options : Options) (records : List FileObj)
    (cmpt : Nat) : Results :=
  assembleResults cmpt (dupeGroups osH options records)

/-- `duf` on a record list (the walk yields one record per regular file, so
`cmpt = records.length`). -/
def dufFrom (osH : Bool) (options : Options) (records : List FileObj) :
    Results :=
  dufCore osH options records records.length

/-!
The metadata-collection walk (goduf.go:107-144 `visit`, driven by
`filepath.Walk` at goduf.go:461-465).  `filepath.Walk` is the Go standard
library's lexical walk; its behaviour at each node, as relevant to the
callback:

* `lstat` of the root fails ⇒ `walkFn(root, nil, err)`; afterwards a
  `SkipDir` result is converted to success.
* a regular/special file ⇒ `walkFn(path, info, nil)`.
* a readable directory ⇒ `walkFn(path, info, nil)` then each child in turn:
  a child whose `lstat` fails gets `walkFn(child, nil, err)`, whose non-nil
  non-`SkipDir` result aborts the walk; a child walk returning `SkipDir` is
  swallowed only if the child is a directory.
* an unreadable directory ⇒ `walkFn(path, info, err)`; its result (`SkipDir`
  from `visit`) skips the subtree; the parent loop continues with siblings.
-/

/-- A file tree as seen by `filepath.Walk`: regular files (with the stat
data and content a `FileObj` carries; its `FilePath` is replaced by the
walk path), special files (symlinks etc.), directories (readable or not),
and entries whose `lstat` fails. -/
inductive FTree where
  | file (fo : FileObj)
  | special
  | dir (readable : Bool) (children : List (String × FTree))
  | statFail

/-- Whether a node is a directory (used for `filepath.Walk`'s `SkipDir`
swallowing rule). -/
def FTree.isDir : FTree → Bool
  | .dir _ _ => true
  | _ => false

/-- The walk-time accumulator state of `visit` (the fields of `dataT`
written by it, goduf.go:91-97): the file counter `cmpt`, `totalSize`, the
record insertions (in order; `data.sizeGroups` is `groupBySize records`),
and `ignoreCount`. -/
structure WalkData where
  cmpt : Nat
  totalSize : Nat
  records : List FileObj
  ignoreCount : Nat
deriving DecidableEq, Repr

/-- What `filepath.Walk` passes as the `os.FileInfo` argument. -/
inductive FInfo where
  | fileInfo (fo : FileObj)
  | dirInfo
  | specialInfo
deriving DecidableEq, Repr

/-- The outcome of a `visit` call / subtree walk: continue (`nil`),
`filepath.SkipDir`, or a propagated error. -/
inductive WalkStep where
  | ok
  | skipDir
  | fail
deriving DecidableEq, Repr

/-- `func visit(path string, f os.FileInfo, err error) error`
(goduf.go:107-144): on an error with no file info, return the error; on an
error for a directory, return `filepath.SkipDir`; on an error for a file,
count it ignored and continue; directories pass; special files are counted
ignored; regular files are counted and recorded. -/
def visit (st : WalkData) (f : Option FInfo) (err : Bool) :
    WalkData × WalkStep :=
  if err then
    match f with
    | none => (st, .fail)
    | some .dirInfo => (st, .skipDir)
    | some _ => ({ st with ignoreCount := st.ignoreCount + 1 }, .ok)
  else
    match f with
    | some .dirInfo => (st, .ok)
    | some .specialInfo => ({ st with ignoreCount := st.ignoreCount + 1 }, .ok)
    | some (.fileInfo fo) =>
      ({ st with cmpt := st.cmpt + 1, totalSize := st.totalSize + fo.size,
                 records := st.records ++ [fo] }, .ok)
    | none => (st, .ok)

mutual

/-- The recursive `walk` helper of `filepath.Walk`, specialised to the
`visit` callback, on a node whose `lstat` succeeded (a `statFail` node is
handled by its parent, or by `Walk` at the root). -/
def walkTree (st : WalkData) (path : String) (t : FTree) :
    WalkData × WalkStep :=
  match t with
  | .file fo => visit st (some (.fileInfo { fo with FilePath := path })) false
  | .special => visit st (some .specialInfo) false
  | .statFail => (st, .ok)
  | .dir readable children =>
    if readable then
      let v := visit st (some .dirInfo) false
      walkChildren v.1 path children
    else
      visit st (some .dirInfo) true

/-- The child loop of `walk`: `lstat` each child; on failure call the
callback with nil info (aborting on its non-`SkipDir` error); otherwise
recurse, swallowing `SkipDir` only from directory children. -/
def walkChildren (st : WalkData) (path : String) :
    List (String × FTree) → WalkData × WalkStep
  | [] => (st, .ok)
  | (name, c) :: rest =>
    match c with
    | .statFail =>
      let v := visit st none true
      match v.2 with
      | .fail => (v.1, .fail)
      | _ => walkChildren v.1 path rest
    | _ =>
      let w := walkTree st (path ++ ("/") ++ name) c
      match w.2 with
      | .ok => walkChildren w.1 path rest
      | .fail => (w.1, .fail)
      | .skipDir =>
        if c.isDir then walkChildren w.1 path rest else (w.1, .skipDir)

end

/-- `filepath.Walk(root, visit)`: `lstat` the root (on failure the callback
gets nil info and a non-nil error), else walk it; a `SkipDir` outcome is
converted to success.  Returns the state and whether `Walk` returned a
non-nil error. -/
def Walk (st : WalkData) (root : String) (t : FTree) : WalkData × Bool :=
  match t with
  | .statFail =>
    let v := visit st none true
    (v.1, v.2 == .fail)
  | t =>
    let w := walkTree st root t
    (w.1, w.2 == .fail)

/-- The root loop of `duf` (goduf.go:461-465): walk each root; the first
`Walk` error aborts with `could not read file tree`. -/
def walkRoots (st : WalkData) : List (String × FTree) → WalkData × Bool
  | [] => (st, false)
  | (root, t) :: rest =>
    let w := Walk st root t
    if w.2 then (w.1, true) else walkRoots w.1 rest

/-- `duf` from the directory roots (goduf.go:450-537): walk, then the
record pipeline of `dufCore`. -/
def duf (osH : Bool) (options : Options) (roots : List (String × FTree)) :
    Except String Results :=
  let w := walkRoots { cmpt := 0, totalSize := 0, records := [], ignoreCount := 0 } roots
  if w.2 then .error ("could not read file tree")
  else .ok (dufCore osH options w.1.records w.1.cmpt)

/-! ### Order lemmas for the three comparison functions -/

theorem charListLE_total : ∀ a b : List Char,
    charListLE a b = true ∨ charListLE b a = true := by
  intro a
  induction a with
  | nil => intro b; left; rfl
  | cons x xs ih =>
    intro b
    cases b with
    | nil => right; rfl
    | cons y ys =>
      by_cases hxy : x.toNat = y.toNat
      · rcases ih ys with h | h
        · left; simp [charListLE, hxy, h]
        · right; simp [charListLE, hxy.symm, h]
      · by_cases hlt : x.toNat < y.toNat
        · left; simp [charListLE, hxy, hlt]
        · right
          have hne : y.toNat ≠ x.toNat := fun h => hxy h.symm
          have : y.toNat < x.toNat := by omega
          simp [charListLE, hne, this]

theorem charListLE_trans : ∀ a b c : List Char,
    charListLE a b = true → charListLE b c = true → charListLE a c = true := by
  intro a
  induction a with
  | nil => intro b c _ _; rfl
  | cons x xs ih =>
    intro b c hab hbc
    cases b with
    | nil => simp [charListLE] at hab
    | cons y ys =>
      cases c with
      | nil => simp [charListLE] at hbc
      | cons z zs =>
        simp only [charListLE] at hab hbc ⊢
        by_cases hxy : x.toNat = y.toNat
        · by_cases hyz : y.toNat = z.toNat
          · rw [if_pos hxy] at hab
            rw [if_pos hyz] at hbc
            rw [if_pos (hxy.trans hyz)]
            exact ih ys zs hab hbc
          · rw [if_neg hyz] at hbc
            have hyzlt : y.toNat < z.toNat := by
              by_contra hc
              simp [hc] at hbc
            have hxz : x.toNat ≠ z.toNat := by omega
            rw [if_neg hxz]
            simp only [decide_eq_true_eq]
            omega
        · rw [if_neg hxy] at hab
          have hxylt : x.toNat < y.toNat := by
            by_contra hc
            simp [hc] at hab
          by_cases hyz : y.toNat = z.toNat
          · have hxz : x.toNat ≠ z.toNat := by omega
            rw [if_neg hxz]
            simp only [decide_eq_true_eq]
            omega
          · have hyzlt : y.toNat < z.toNat := by
              rw [if_neg hyz] at hbc
              by_contra hc
              simp [hc] at hbc
            have hxz : x.toNat ≠ z.toNat := by omega
            rw [if_neg hxz]
            simp only [decide_eq_true_eq]
            omega

theorem charListLE_antisymm : ∀ a b : List Char,
    charListLE a b = true → charListLE b a = true → a = b := by
  intro a
  induction a with
  | nil =>
    intro b _ hba
    cases b with
    | nil => rfl
    | cons y ys => simp [charListLE] at hba
  | cons x xs ih =>
    intro b hab hba
    cases b with
    | nil => simp [charListLE] at hab
    | cons y ys =>
      simp only [charListLE] at hab hba
      by_cases hxy : x.toNat = y.toNat
      · have hx : x = y := Char.ext (UInt32.ext hxy)
        rw [if_pos hxy] at hab
        rw [if_pos hxy.symm] at hba
        rw [hx, ih ys hab hba]
      · rw [if_neg hxy] at hab
        have hxylt : x.toNat < y.toNat := by
          by_contra hc
          simp [hc] at hab
        have hyx : y.toNat ≠ x.toNat := by omega
        rw [if_neg hyx] at hba
        simp only [decide_eq_true_eq] at hba
        omega

theorem strLE_total (a b : String) : strLE a b = true ∨ strLE b a = true :=
  charListLE_total a.toList b.toList

theorem strLE_trans {a b c : String} (h1 : strLE a b = true)
    (h2 : strLE b c = true) : strLE a c = true :=
  charListLE_trans a.toList b.toList c.toList h1 h2

theorem strLE_antisymm {a b : String} (h1 : strLE a b = true)
    (h2 : strLE b a = true) : a = b :=
  String.ext (charListLE_antisymm a.toList b.toList h1 h2)

theorem ByInodeLE_total (osH : Bool) (a b : FileObj) :
    ByInodeLE osH a b = true ∨ ByInodeLE osH b a = true := by
  cases osH with
  | false => exact strLE_total a.FilePath b.FilePath
  | true =>
    simp only [ByInodeLE, if_pos, Bool.or_eq_true, Bool.and_eq_true,
      decide_eq_true_eq]
    omega

theorem ByInodeLE_trans (osH : Bool) {a b c : FileObj}
    (h1 : ByInodeLE osH a b = true) (h2 : ByInodeLE osH b c = true) :
    ByInodeLE osH a c = true := by
  cases osH with
  | false => exact strLE_trans h1 h2
  | true =>
    simp only [ByInodeLE, if_pos, Bool.or_eq_true, Bool.and_eq_true,
      decide_eq_true_eq] at h1 h2 ⊢
    omega

/-- Mutual `ByInodeLE` pins down the sort key: equal `(dev, ino)` on the
unix variant, equal `FilePath` on the fallback variant. -/
theorem ByInodeLE_antisymm_key (osH : Bool) {a b : FileObj}
    (h1 : ByInodeLE osH a b = true) (h2 : ByInodeLE osH b a = true) :
    GetDevIno osH a = GetDevIno osH b ∧
      (osH = false → a.FilePath = b.FilePath) := by
  cases osH with
  | false =>
    refine ⟨rfl, fun _ => strLE_antisymm h1 h2⟩
  | true =>
    simp only [ByInodeLE, if_pos, Bool.or_eq_true, Bool.and_eq_true,
      decide_eq_true_eq] at h1 h2
    refine ⟨?_, fun h => by cases h⟩
    simp only [GetDevIno, if_pos]
    have : a.dev = b.dev := by omega
    have : a.ino = b.ino := by omega
    simp_all

theorem byFilePathNameLE_total (a b : FileObj) :
    byFilePathNameLE a b = true ∨ byFilePathNameLE b a = true :=
  strLE_total a.FilePath b.FilePath

theorem byFilePathNameLE_trans {a b c : FileObj}
    (h1 : byFilePathNameLE a b = true) (h2 : byFilePathNameLE b c = true) :
    byFilePathNameLE a c = true :=
  strLE_trans h1 h2

theorem byGroupFileSizeLE_total (g1 g2 : List FileObj) :
    byGroupFileSizeLE g1 g2 = true ∨ byGroupFileSizeLE g2 g1 = true := by
  unfold byGroupFileSizeLE
  by_cases h : (groupKey g1).1 = (groupKey g2).1
  · rw [if_pos h, if_pos h.symm]
    exact strLE_total _ _
  · rw [if_neg h, if_neg (fun hc => h hc.symm)]
    simp only [decide_eq_true_eq]
    omega

theorem byGroupFileSizeLE_trans {g1 g2 g3 : List FileObj}
    (h1 : byGroupFileSizeLE g1 g2 = true)
    (h2 : byGroupFileSizeLE g2 g3 = true) : byGroupFileSizeLE g1 g3 = true := by
  unfold byGroupFileSizeLE at h1 h2 ⊢
  by_cases h12 : (groupKey g1).1 = (groupKey g2).1
  · rw [if_pos h12] at h1
    by_cases h23 : (groupKey g2).1 = (groupKey g3).1
    · rw [if_pos h23] at h2
      rw [if_pos (h12.trans h23)]
      exact strLE_trans h1 h2
    · rw [if_neg h23] at h2
      simp only [decide_eq_true_eq] at h2
      have hne : (groupKey g1).1 ≠ (groupKey g3).1 := by omega
      rw [if_neg hne]
      simp only [decide_eq_true_eq]
      omega
  · rw [if_neg h12] at h1
    simp only [decide_eq_true_eq] at h1
    have hlt12 : (groupKey g1).1 < (groupKey g2).1 := by omega
    by_cases h23 : (groupKey g2).1 = (groupKey g3).1
    · have hne : (groupKey g1).1 ≠ (groupKey g3).1 := by omega
      rw [if_neg hne]
      simp only [decide_eq_true_eq]
      omega
    · rw [if_neg h23] at h2
      simp only [decide_eq_true_eq] at h2
      have hne : (groupKey g1).1 ≠ (groupKey g3).1 := by omega
      rw [if_neg hne]
      simp only [decide_eq_true_eq]
      omega

/-- Mutual `byGroupFileSizeLE` forces equal keys. -/
theorem byGroupFileSizeLE_antisymm_key {g1 g2 : List FileObj}
    (h1 : byGroupFileSizeLE g1 g2 = true) (h2 : byGroupFileSizeLE g2 g1 = true) :
    groupKey g1 = groupKey g2 := by
  unfold byGroupFileSizeLE at h1 h2
  by_cases h : (groupKey g1).1 = (groupKey g2).1
  · rw [if_pos h] at h1
    rw [if_pos h.symm] at h2
    have := strLE_antisymm h1 h2
    exact Prod.ext h this
  · rw [if_neg h] at h1
    rw [if_neg (fun hc => h hc.symm)] at h2
    simp only [decide_eq_true_eq] at h1 h2
    omega

/-! ### Unique sortedness: two sorted permutations with injective keys on
their members are equal. -/

/-- Any two sorted permutations of the same multiset coincide, provided the
comparison is antisymmetric on the members involved. -/
theorem sorted_perm_eq {α : Type} (le : α → α → Bool) :
    ∀ {l1 l2 : List α},
      (∀ a ∈ l1, ∀ b ∈ l1, le a b = true → le b a = true → a = b) →
      l1.Perm l2 →
      l1.Pairwise (fun a b => le a b = true) →
      l2.Pairwise (fun a b => le a b = true) → l1 = l2 := by
  intro l1
  induction l1 with
  | nil =>
    intro l2 _ hp _ _
    exact (List.Perm.nil_eq hp).symm ▸ rfl
  | cons a t1 ih =>
    intro l2 hanti hp hs1 hs2
    have ha2 : a ∈ l2 := hp.subset (List.mem_cons_self a t1)
    cases l2 with
    | nil => simp at ha2
    | cons b t2 =>
      have hb1 : b ∈ a :: t1 := hp.symm.subset (List.mem_cons_self b t2)
      have hab : a = b := by
        rcases List.mem_cons.mp hb1 with h | h
        · exact h.symm
        · rcases List.mem_cons.mp ha2 with h2 | h2
          · exact h2
          · have h1 : le a b = true := (List.pairwise_cons.mp hs1).1 b h
            have h2' : le b a = true := (List.pairwise_cons.mp hs2).1 a h2
            exact hanti a (List.mem_cons_self a t1) b hb1 h1 h2'
      subst hab
      have hpt : t1.Perm t2 := hp.cons_inv
      have ht : t1 = t2 := by
        refine ih ?_ hpt (List.pairwise_cons.mp hs1).2 (List.pairwise_cons.mp hs2).2
        intro x hx y hy h1 h2
        exact hanti x (List.mem_cons_of_mem a hx) y (List.mem_cons_of_mem a hy) h1 h2
      rw [ht]

/-! ### Digest-grouping (`groupsOf`) lemmas -/

/-- Membership in the digest key list. -/
theorem mem_digestKeys {sType : sumType} {l : List FileObj} {d : List Nat} :
    d ∈ (l.filterMap (digestOf sType)).dedup ↔
      ∃ f ∈ l, digestOf sType f = some d := by
  rw [List.mem_dedup, List.mem_filterMap]

/-- Membership in a digest group. -/
theorem mem_digestGroup {sType : sumType} {l : List FileObj} {d : List Nat}
    {f : FileObj} :
    f ∈ l.filter (fun f => digestOf sType f == some d) ↔
      f ∈ l ∧ digestOf sType f = some d := by
  rw [List.mem_filter, beq_iff_eq]

theorem groupsOf_mem_iff {sType : sumType} {l : List FileObj}
    {g : List FileObj} :
    g ∈ groupsOf sType l ↔
      ∃ d, (∃ f ∈ l, digestOf sType f = some d) ∧
        g = l.filter (fun f => digestOf sType f == some d) := by
  unfold groupsOf
  rw [List.mem_map]
  constructor
  · rintro ⟨d, hd, rfl⟩
    exact ⟨d, mem_digestKeys.mp hd, rfl⟩
  · rintro ⟨d, hd, rfl⟩
    exact ⟨d, mem_digestKeys.mpr hd, rfl⟩

theorem groupsOf_sublist {sType : sumType} {l : List FileObj}
    {g : List FileObj} (h : g ∈ groupsOf sType l) : g.Sublist l := by
  rcases groupsOf_mem_iff.mp h with ⟨d, _, rfl⟩
  exact List.filter_sublist l

theorem groupsOf_mem_digest {sType : sumType} {l : List FileObj}
    {g : List FileObj} (h : g ∈ groupsOf sType l) :
    ∃ d, ∀ f ∈ g, digestOf sType f = some d := by
  rcases groupsOf_mem_iff.mp h with ⟨d, _, rfl⟩
  exact ⟨d, fun f hf => (mem_digestGroup.mp hf).2⟩

theorem groupsOf_ne_nil {sType : sumType} {l : List FileObj}
    {g : List FileObj} (h : g ∈ groupsOf sType l) : g ≠ [] := by
  rcases groupsOf_mem_iff.mp h with ⟨d, ⟨f, hf, hd⟩, rfl⟩
  intro hnil
  have : f ∈ l.filter (fun f => digestOf sType f == some d) :=
    mem_digestGroup.mpr ⟨hf, hd⟩
  rw [hnil] at this
  simp at this

/-- Every file of the list with a computable digest lands in a group. -/
theorem groupsOf_complete {sType : sumType} {l : List FileObj} {f : FileObj}
    {d : List Nat} (hf : f ∈ l) (hd : digestOf sType f = some d) :
    l.filter (fun f => digestOf sType f == some d) ∈ groupsOf sType l :=
  groupsOf_mem_iff.mpr ⟨d, ⟨f, hf, hd⟩, rfl⟩

/-- Distinct groups of one grouping pass share no member. -/
theorem groupsOf_pairwise_disjoint (sType : sumType) (l : List FileObj) :
    (groupsOf sType l).Pairwise
      (fun g1 g2 => ∀ f, f ∈ g1 → f ∈ g2 → False) := by
  unfold groupsOf
  rw [List.pairwise_map]
  refine List.Pairwise.imp ?_
    (List.nodup_dedup (l.filterMap (digestOf sType)))
  intro d1 d2 hne f h1 h2
  have e1 := (mem_digestGroup.mp h1).2
  have e2 := (mem_digestGroup.mp h2).2
  rw [e1] at e2
  exact hne (Option.some.injEq _ _ ▸ e2)

/-- Erasing a file with no computable digest does not change the digest
groups. -/
theorem filterMap_erase_none {β : Type} {h : FileObj → Option β}
    {u : FileObj} (hu : h u = none) :
    ∀ l : List FileObj, (l.erase u).filterMap h = l.filterMap h := by
  intro l
  induction l with
  | nil => rfl
  | cons a t ih =>
    rw [List.erase_cons]
    by_cases hau : a = u
    · subst hau
      simp only [beq_self_eq_true, if_pos]
      rw [List.filterMap_cons_none hu]
    · rw [if_neg (by simp [hau])]
      rw [List.filterMap_cons, List.filterMap_cons, ih]

theorem filter_erase_not {p : FileObj → Bool} {u : FileObj}
    (hu : p u = false) :
    ∀ l : List FileObj, (l.erase u).filter p = l.filter p := by
  intro l
  induction l with
  | nil => rfl
  | cons a t ih =>
    rw [List.erase_cons]
    by_cases hau : a = u
    · subst hau
      simp only [beq_self_eq_true, if_pos]
      rw [List.filter_cons, hu]
      simp
    · rw [if_neg (by simp [hau])]
      rw [List.filter_cons, List.filter_cons, ih]

theorem groupsOf_erase {sType : sumType} {l : List FileObj} {u : FileObj}
    (hu : digestOf sType u = none) :
    groupsOf sType (l.erase u) = groupsOf sType l := by
  unfold groupsOf
  rw [filterMap_erase_none hu]
  refine List.map_congr_left ?_
  intro d _
  refine filter_erase_not ?_ l
  simp [hu]

/-! ### Sort wrappers -/

theorem sortByInode_perm (osH : Bool) (l : List FileObj) :
    (sortByInode osH l).Perm l :=
  List.perm_insertionSort _ l

theorem mem_sortByInode {osH : Bool} {l : List FileObj} {f : FileObj} :
    f ∈ sortByInode osH l ↔ f ∈ l :=
  (sortByInode_perm osH l).mem_iff

theorem sortByInode_sorted (osH : Bool) (l : List FileObj) :
    (sortByInode osH l).Pairwise (fun a b => ByInodeLE osH a b = true) := by
  haveI : IsTotal FileObj (fun a b => ByInodeLE osH a b = true) :=
    ⟨fun a b => ByInodeLE_total osH a b⟩
  haveI : IsTrans FileObj (fun a b => ByInodeLE osH a b = true) :=
    ⟨fun _ _ _ => ByInodeLE_trans osH⟩
  exact List.sorted_insertionSort _ l

/-- Sorting an already `ByInodeLE`-sorted list is the identity. -/
theorem sortByInode_of_sorted {osH : Bool} {l : List FileObj}
    (h : l.Pairwise (fun a b => ByInodeLE osH a b = true)) :
    sortByInode osH l = l :=
  List.Sorted.insertionSort_eq h

/-! ### Membership characterisation of the checksum stage -/

theorem findDupesFullCk_mem {osH : Bool} {l g : List FileObj}
    (h : g ∈ findDupesFullCk osH false l) :
    2 ≤ g.length ∧ (∃ d, ∀ f ∈ g, f.Checksum = some d) ∧ ∀ f ∈ g, f ∈ l := by
  unfold findDupesFullCk at h
  rw [if_neg (by simp)] at h
  rw [List.mem_filter] at h
  obtain ⟨hg, hlen⟩ := h
  refine ⟨by simpa using hlen, ?_, ?_⟩
  · simpa [digestOf, checksum] using groupsOf_mem_digest hg
  · intro f hf
    exact mem_sortByInode.mp ((groupsOf_sublist hg).subset hf)

theorem findDupesPartCk_mem {osH : Bool} {l g : List FileObj}
    (h : g ∈ findDupesPartCk osH false l) :
    2 ≤ g.length ∧ (∃ d, ∀ f ∈ g, f.Checksum = some d) ∧ ∀ f ∈ g, f ∈ l := by
  unfold findDupesPartCk at h
  rw [if_neg (by simp)] at h
  rw [List.mem_flatMap] at h
  obtain ⟨sg, hsg, hg⟩ := h
  rw [List.mem_filter] at hsg
  obtain ⟨hsg', _⟩ := hsg
  obtain ⟨hlen, hdig, hmem⟩ := findDupesFullCk_mem hg
  refine ⟨hlen, hdig, fun f hf => ?_⟩
  exact mem_sortByInode.mp ((groupsOf_sublist hsg').subset (hmem f hf))

theorem findDupesChecksums_mem {osH : Bool} {sType : sumType}
    {l g : List FileObj} (h : g ∈ findDupesChecksums osH sType false l) :
    2 ≤ g.length ∧ (∃ d, ∀ f ∈ g, f.Checksum = some d) ∧ ∀ f ∈ g, f ∈ l := by
  cases sType with
  | noChecksum => simp [findDupesChecksums] at h
  | fullChecksum => exact findDupesFullCk_mem h
  | partChecksum => exact findDupesPartCk_mem h

/-- The bucket split of `findDupes` only reorders the bucket list. -/
theorem schedulePartition_fst_subset {skipPartial : Bool}
    {gs : List (Nat × List FileObj)} {p : Nat × List FileObj}
    (h : p ∈ (schedulePartition skipPartial gs).1) : p ∈ gs := by
  unfold schedulePartition at h
  rw [List.partition_eq_filter_filter] at h
  exact (List.mem_filter.mp h).1

theorem schedulePartition_snd_subset {skipPartial : Bool}
    {gs : List (Nat × List FileObj)} {p : Nat × List FileObj}
    (h : p ∈ (schedulePartition skipPartial gs).2) : p ∈ gs := by
  unfold schedulePartition at h
  rw [List.partition_eq_filter_filter] at h
  exact (List.mem_filter.mp h).1

/-- Core of claim C1: every group emitted by the checksum stage has at
least two members, all of its members share one full-content digest, and
its members come from one bucket of the input. -/
theorem findDupes_mem {osH skipPartial : Bool}
    {gs : List (Nat × List FileObj)} {g : List FileObj}
    (h : g ∈ findDupes osH skipPartial gs) :
    2 ≤ g.length ∧ (∃ d, ∀ f ∈ g, f.Checksum = some d) ∧
      ∃ p ∈ gs, ∀ f ∈ g, f ∈ p.2 := by
  unfold findDupes at h
  rw [List.mem_append] at h
  rcases h with h | h <;>
  · rw [List.mem_flatMap] at h
    obtain ⟨bl, hbl, hg⟩ := h
    rw [List.mem_map] at hbl
    obtain ⟨p, hp, rfl⟩ := hbl
    obtain ⟨hlen, hdig, hmem⟩ := findDupesChecksums_mem hg
    first
    | exact ⟨hlen, hdig, p, schedulePartition_fst_subset hp, hmem⟩
    | exact ⟨hlen, hdig, p, schedulePartition_snd_subset hp, hmem⟩

/-! ### Concrete files for the spec scenarios

`bigA`/`bigB`: two above-threshold files (size 49153 > 49152) whose first
and last 128 bytes agree but whose middle content differs. -/

def contA : List Nat :=
  List.replicate 128 0 ++ (List.replicate 48897 0 ++ List.replicate 128 0)

def contB : List Nat :=
  List.replicate 128 0 ++ (List.replicate 48897 1 ++ List.replicate 128 0)

def bigA : FileObj :=
  { FilePath := "bigA", size := 49153, dev := 1, ino := 21, content := some contA }

def bigB : FileObj :=
  { FilePath := "bigB", size := 49153, dev := 1, ino := 22, content := some contB }

/-- The common partial digest of `bigA` and `bigB`: first 128 bytes ++ last
128 bytes, all zero. -/
def digPart : List Nat := List.replicate 128 0 ++ List.replicate 128 0

theorem contA_length : contA.length = 49153 := by
  rw [contA, List.length_append, List.length_append, List.length_replicate,
    List.length_replicate]

theorem contB_length : contB.length = 49153 := by
  rw [contB, List.length_append, List.length_append, List.length_replicate,
    List.length_replicate]

theorem replicate128_length : (List.replicate 128 (0 : Nat)).length = 128 :=
  List.length_replicate 128 0

theorem bigA_partCk : digestOf .partChecksum bigA = some digPart := by
  show bigA.partChecksum = some digPart
  rw [FileObj.partChecksum]
  show (if medsumBytes ≤ contA.length then
    some (contA.take medsumBytes ++ contA.drop (contA.length - medsumBytes))
    else none) = some digPart
  rw [contA_length, medsumBytes]
  rw [if_pos (by decide)]
  show some (contA.take 128 ++ contA.drop 49025) = some digPart
  have htake : contA.take 128 = List.replicate 128 0 := by
    rw [contA]
    exact List.take_left' replicate128_length
  have hdrop : contA.drop 49025 = List.replicate 128 0 := by
    rw [contA, ← List.append_assoc]
    refine List.drop_left' ?_
    rw [List.length_append, List.length_replicate, List.length_replicate]
  rw [htake, hdrop, digPart]

theorem bigB_partCk : digestOf .partChecksum bigB = some digPart := by
  show bigB.partChecksum = some digPart
  rw [FileObj.partChecksum]
  show (if medsumBytes ≤ contB.length then
    some (contB.take medsumBytes ++ contB.drop (contB.length - medsumBytes))
    else none) = some digPart
  rw [contB_length, medsumBytes]
  rw [if_pos (by decide)]
  show some (contB.take 128 ++ contB.drop 49025) = some digPart
  have htake : contB.take 128 = List.replicate 128 0 := by
    rw [contB]
    exact List.take_left' replicate128_length
  have hdrop : contB.drop 49025 = List.replicate 128 0 := by
    rw [contB, ← List.append_assoc]
    refine List.drop_left' ?_
    rw [List.length_append, List.length_replicate, List.length_replicate]
  rw [htake, hdrop, digPart]

theorem bigA_fullCk : digestOf .fullChecksum bigA = some contA := by
  show bigA.Checksum = some contA
  rw [FileObj.Checksum]
  show (if contA.length = bigA.size then some contA else none) = some contA
  rw [contA_length]
  rfl

theorem bigB_fullCk : digestOf .fullChecksum bigB = some contB := by
  show bigB.Checksum = some contB
  rw [FileObj.Checksum]
  show (if contB.length = bigB.size then some contB else none) = some contB
  rw [contB_length]
  rfl

theorem count_one_contA : List.count 1 contA = 0 := by
  rw [contA, List.count_append, List.count_append, List.count_replicate,
    List.count_replicate]
  decide

theorem count_one_contB : List.count 1 contB = 48897 := by
  rw [contB, List.count_append, List.count_append, List.count_replicate,
    List.count_replicate]
  decide

/-- The full contents differ (in the middle region). -/
theorem contA_ne_contB : contA ≠ contB := by
  intro h
  have hc := congrArg (List.count 1) h
  rw [count_one_contA, count_one_contB] at hc
  exact absurd hc (by decide)

theorem sort_bigAB : sortByInode true [bigA, bigB] = [bigA, bigB] := by
  refine sortByInode_of_sorted ?_
  refine List.pairwise_cons.mpr ⟨?_, ?_⟩
  · intro b hb
    rw [List.mem_singleton] at hb
    subst hb
    rw [ByInodeLE]
    simp [bigA, bigB]
  · simp

theorem beq_digPart_self : ((some digPart == some digPart) = true) :=
  beq_self_eq_true (some digPart)

theorem beq_contBA : ((some contB == some contA) = false) := by
  rw [beq_eq_false_iff_ne]
  intro hc
  exact contA_ne_contB (Option.some.inj hc).symm

theorem beq_contAB : ((some contA == some contB) = false) := by
  rw [beq_eq_false_iff_ne]
  intro hc
  exact contA_ne_contB (Option.some.inj hc)

theorem groupsOf_part_bigAB :
    groupsOf .partChecksum [bigA, bigB] = [[bigA, bigB]] := by
  rw [groupsOf]
  rw [show List.filterMap (digestOf .partChecksum) [bigA, bigB]
      = [digPart, digPart] by
    rw [List.filterMap_cons_some bigA_partCk,
      List.filterMap_cons_some bigB_partCk, List.filterMap_nil]]
  rw [List.dedup_cons_of_mem (List.mem_singleton.mpr rfl)]
  rw [List.dedup_cons_of_not_mem (List.not_mem_nil digPart), List.dedup_nil]
  rw [List.map_singleton]
  simp only [List.filter_cons, List.filter_nil]
  rw [bigA_partCk, bigB_partCk, beq_digPart_self]
  rw [if_pos rfl, if_pos rfl]

theorem groupsOf_full_bigAB :
    groupsOf .fullChecksum [bigA, bigB] = [[bigA], [bigB]] := by
  rw [groupsOf]
  rw [show List.filterMap (digestOf .fullChecksum) [bigA, bigB]
      = [contA, contB] by
    rw [List.filterMap_cons_some bigA_fullCk,
      List.filterMap_cons_some bigB_fullCk, List.filterMap_nil]]
  rw [List.dedup_cons_of_not_mem
      (fun hc => contA_ne_contB (List.mem_singleton.mp hc)),
    List.dedup_cons_of_not_mem (List.not_mem_nil contB), List.dedup_nil]
  rw [List.map_cons, List.map_singleton]
  simp only [List.filter_cons, List.filter_nil]
  rw [bigA_fullCk, bigB_fullCk]
  rw [beq_self_eq_true (some contA), beq_self_eq_true (some contB),
    beq_contBA, beq_contAB]
  rw [if_pos rfl, if_pos rfl]
  rw [if_neg (by rw [Bool.false_eq_true]; exact fun hc => hc),
    if_neg (by rw [Bool.false_eq_true]; exact fun hc => hc)]

/-- The spec scenario of claim C1: the two files match on the partial
fingerprint, are escalated, differ on the full fingerprint, and no group is
reported. -/
theorem findDupes_bigAB : findDupes true false [(49153, [bigA, bigB])] = [] := by
  have hpart : schedulePartition false [(49153, [bigA, bigB])] =
      ([(49153, [bigA, bigB])], []) := by
    rw [schedulePartition, List.partition_eq_filter_filter]
    rw [List.filter_cons, List.filter_cons, List.filter_nil, List.filter_nil]
    rw [if_pos (by decide), if_neg (by decide)]
  rw [findDupes, hpart]
  simp only [List.map_cons, List.map_nil, List.flatMap_cons, List.flatMap_nil,
    List.append_nil, findDupesChecksums]
  simp only [findDupesPartCk]
  rw [if_neg Bool.false_ne_true]
  rw [sort_bigAB, groupsOf_part_bigAB]
  rw [show List.filter (fun l => decide (2 ≤ l.length)) [[bigA, bigB]]
      = [[bigA, bigB]] by
    rw [List.filter_cons, if_pos (by decide), List.filter_nil]]
  simp only [List.flatMap_cons, List.flatMap_nil, List.append_nil]
  simp only [findDupesFullCk]
  rw [if_neg Bool.false_ne_true]
  rw [sort_bigAB, groupsOf_full_bigAB]
  rw [show List.filter (fun l => decide (2 ≤ l.length)) [[bigA], [bigB]]
      = [] by
    rw [List.filter_cons, if_neg (by decide), List.filter_cons,
      if_neg (by decide), List.filter_nil]]

/-! ### Result assembly: the fold over sorted groups -/

/-- The `ResultSet` a single nonempty group contributes (goduf.go:521-530). -/
def resultSet1 (l : List FileObj) : Option ResultSet :=
  match l with
  | [] => none
  | f :: _ => some { Size := f.size, Paths := l.map FileObj.FilePath }

/-- The `ResultSet`s contributed by a group list. -/
def resultSets (groups : List (List FileObj)) : List ResultSet :=
  groups.filterMap resultSet1

/-- Mathematical redundant size of a list of result sets:
`Σ size * (memberCount - 1)`. -/
def sumRDS (rss : List ResultSet) : Nat :=
  (rss.map (fun rs => rs.Size * (rs.Paths.length - 1))).sum

/-- Mathematical duplicate count: `Σ memberCount`. -/
def sumDup (rss : List ResultSet) : Nat :=
  (rss.map (fun rs => rs.Paths.length)).sum

theorem foldl_addResult (groups : List (List FileObj)) :
    ∀ res : Results, res.RedundantDataSize < U64 → res.Duplicates < U64 →
      (groups.foldl addResult res).Groups = res.Groups ++ resultSets groups ∧
      (groups.foldl addResult res).RedundantDataSize
        = (res.RedundantDataSize + sumRDS (resultSets groups)) % U64 ∧
      (groups.foldl addResult res).Duplicates
        = (res.Duplicates + sumDup (resultSets groups)) % U64 := by
  induction groups with
  | nil =>
    intro res h1 h2
    refine ⟨by simp [resultSets], ?_, ?_⟩
    · simp [resultSets, sumRDS, Nat.mod_eq_of_lt h1]
    · simp [resultSets, sumDup, Nat.mod_eq_of_lt h2]
  | cons l rest ih =>
    intro res h1 h2
    rw [List.foldl_cons]
    cases l with
    | nil =>
      have : addResult res [] = res := rfl
      rw [this]
      have hsets : resultSets ([] :: rest) = resultSets rest := by
        simp [resultSets, resultSet1]
      rw [hsets]
      exact ih res h1 h2
    | cons f t =>
      have hres : addResult res (f :: t) =
          { res with
            RedundantDataSize :=
              (res.RedundantDataSize + f.size * ((f :: t).length - 1)) % U64
            Duplicates := (res.Duplicates + (f :: t).length) % U64
            Groups := res.Groups ++
              [{ Size := f.size, Paths := (f :: t).map FileObj.FilePath }] } := rfl
      rw [hres]
      have hU : 0 < U64 := by
        rw [U64]
        norm_num
      obtain ⟨hg, hr, hd⟩ := ih
        { res with
          RedundantDataSize :=
            (res.RedundantDataSize + f.size * ((f :: t).length - 1)) % U64
          Duplicates := (res.Duplicates + (f :: t).length) % U64
          Groups := res.Groups ++
            [{ Size := f.size, Paths := (f :: t).map FileObj.FilePath }] }
        (Nat.mod_lt _ hU) (Nat.mod_lt _ hU)
      have hsets : resultSets ((f :: t) :: rest) =
          { Size := f.size, Paths := (f :: t).map FileObj.FilePath } ::
            resultSets rest := by
        simp [resultSets, resultSet1]
      refine ⟨?_, ?_, ?_⟩
      · rw [hg, hsets]
        simp
      · rw [hr, hsets, Nat.mod_add_mod]
        congr 1
        simp [sumRDS]
        ring
      · rw [hd, hsets, Nat.mod_add_mod]
        congr 1
        simp [sumDup]
        ring

/-- The fields of `assembleResults` in closed form. -/
theorem assembleResults_fields (cmpt : Nat) (result : List (List FileObj)) :
    (assembleResults cmpt result).Groups = resultSets (sortGroups result) ∧
    (assembleResults cmpt result).RedundantDataSize
      = sumRDS (resultSets (sortGroups result)) % U64 ∧
    (assembleResults cmpt result).Duplicates
      = sumDup (resultSets (sortGroups result)) % U64 ∧
    (assembleResults cmpt result).NumberOfSets
      = (resultSets (sortGroups result)).length % U64 ∧
    (assembleResults cmpt result).TotalFileCount = cmpt % U64 := by
  have hU : (0:Nat) < U64 := by
    rw [U64]
    norm_num
  obtain ⟨hg, hr, hd⟩ := foldl_addResult (sortGroups result)
    { Groups := [], Duplicates := 0, NumberOfSets := 0,
      RedundantDataSize := 0, TotalFileCount := 0 } hU hU
  refine ⟨?_, ?_, ?_, ?_, rfl⟩
  · exact hg
  · rw [assembleResults]
    show (List.foldl addResult _ _).RedundantDataSize = _
    rw [hr]
    simp
  · rw [assembleResults]
    show (List.foldl addResult _ _).Duplicates = _
    rw [hd]
    simp
  · rw [assembleResults]
    show (List.foldl addResult _ _).Groups.length % U64 = _
    rw [hg]
    simp

/-! ### Concrete fixture files for witnesses -/

def optsW : Options :=
  { Summary := false, OutToJSON := false, SkipPartial := false, IgnoreEmpty := false }

def fW1 : FileObj :=
  { FilePath := "w1", size := 1, dev := 1, ino := 1, content := some [7] }

def fW2 : FileObj :=
  { FilePath := "w2", size := 1, dev := 1, ino := 2, content := some [7] }

def f100a : FileObj :=
  { FilePath := "pa", size := 100, dev := 1, ino := 31,
    content := some (List.replicate 100 5) }

def f100b : FileObj :=
  { FilePath := "pb", size := 100, dev := 1, ino := 32,
    content := some (List.replicate 100 5) }

def f100c : FileObj :=
  { FilePath := "pc", size := 100, dev := 1, ino := 33,
    content := some (List.replicate 100 5) }

/-! ### Claim C1 -/

/-- C1: a group is emitted by the staged checksum engine only if all its
members (at least two) share an equal full-content fingerprint — partial
agreement alone never suffices, because partial groups are escalated to a
full pass restricted to that candidate set; in particular two
above-threshold files (`bigA`, `bigB`) with identical first and last 128
bytes but different middle content yield no group. -/
theorem C1_groups_share_full_fingerprint :
    (∀ (osH skipPartial : Bool) (gs : List (Nat × List FileObj))
        (g : List FileObj), g ∈ findDupes osH skipPartial gs →
        2 ≤ g.length ∧ ∃ d, ∀ f ∈ g, f.Checksum = some d) ∧
      findDupes true false [(49153, [bigA, bigB])] = [] := by
  constructor
  · intro osH skipPartial gs g hg
    obtain ⟨hlen, hdig, _⟩ := findDupes_mem hg
    exact ⟨hlen, hdig⟩
  · exact findDupes_bigAB

/-- Witness for C1 at a concrete input: the group actually emitted for two
identical 1-byte files satisfies the conclusion. -/
theorem C1_witness :
    2 ≤ ([fW1, fW2] : List FileObj).length ∧
      ∃ d, ∀ f ∈ ([fW1, fW2] : List FileObj), f.Checksum = some d :=
  C1_groups_share_full_fingerprint.1 true false [(1, [fW1, fW2])] [fW1, fW2]
    (by decide)

/-! ### Claim C2 -/

/-- C2 counterexample: a bucket whose size is exactly the 49152-byte
threshold is routed to the direct full-fingerprint schedule, not to partial
triage — refuting "a bucket whose size equals the threshold exactly is
triaged by partial fingerprint". -/
theorem C2_counterexample :
    schedulePartition false [(49152, [fW1, fW2])]
        = ([], [(49152, [fW1, fW2])]) ∧
      usePartCk false 49152 = false := by
  constructor
  · rfl
  · rfl

/-- C2 (amended): a bucket is partial-triaged iff its size is strictly
greater than the 49152-byte threshold and partial triage is enabled; every
other bucket (in particular one of size exactly 49152) goes straight to the
full-fingerprint schedule. -/
theorem C2_threshold_routing (skipPartial : Bool)
    (gs : List (Nat × List FileObj)) (p : Nat × List FileObj) :
    (p ∈ (schedulePartition skipPartial gs).1 ↔
      p ∈ gs ∧ minSizePartialChecksum < p.1 ∧ skipPartial = false) ∧
      (p ∈ (schedulePartition skipPartial gs).2 ↔
        p ∈ gs ∧ (p.1 ≤ minSizePartialChecksum ∨ skipPartial = true)) := by
  unfold schedulePartition
  rw [List.partition_eq_filter_filter]
  constructor
  · show p ∈ List.filter _ gs ↔ _
    rw [List.mem_filter]
    unfold usePartCk
    cases skipPartial with
    | false => simp
    | true => simp
  · show p ∈ List.filter _ gs ↔ _
    rw [List.mem_filter]
    unfold usePartCk
    cases skipPartial with
    | false =>
      simp only [Bool.not_false, Bool.and_true, Bool.not_eq_eq_eq_not,
        Bool.not_true, decide_eq_false_iff_not, not_lt]
      simp
    | true => simp

/-! ### Claim C6 -/

/-- C6: the reported redundant data size is the sum over all result groups
of `size * (memberCount - 1)` (computed in Go `uint64` arithmetic; stated
here under the no-overflow side condition). -/
theorem C6_redundant_data_size (osH : Bool) (opts : Options)
    (records : List FileObj)
    (h : sumRDS (dufFrom osH opts records).Groups < U64) :
    (dufFrom osH opts records).RedundantDataSize
      = sumRDS (dufFrom osH opts records).Groups := by
  obtain ⟨hg, hr, _, _, _⟩ :=
    assembleResults_fields records.length (dupeGroups osH opts records)
  have hG : (dufFrom osH opts records).Groups
      = resultSets (sortGroups (dupeGroups osH opts records)) := hg
  have hR : (dufFrom osH opts records).RedundantDataSize
      = sumRDS (resultSets (sortGroups (dupeGroups osH opts records))) % U64 := hr
  rw [hR, ← hG, Nat.mod_eq_of_lt h]

/-- Witness for C6: three identical 100-byte files form one group and
contribute `100 * (3 - 1) = 200`. -/
theorem C6_witness :
    sumRDS (dufFrom true optsW [f100a, f100b, f100c]).Groups < U64 ∧
      (dufFrom true optsW [f100a, f100b, f100c]).RedundantDataSize = 200 := by
  refine ⟨by decide, ?_⟩
  rw [C6_redundant_data_size true optsW [f100a, f100b, f100c] (by decide)]
  decide

/-! ### Claim C10 -/

/-- C10: the reported duplicate count sums every member of every group
(including the representative), and `NumberOfSets` is the number of groups
(Go `uint` arithmetic; stated under the no-overflow side condition). -/
theorem C10_duplicates_count_all_members (osH : Bool) (opts : Options)
    (records : List FileObj)
    (h1 : sumDup (dufFrom osH opts records).Groups < U64)
    (h2 : (dufFrom osH opts records).Groups.length < U64) :
    (dufFrom osH opts records).Duplicates
        = sumDup (dufFrom osH opts records).Groups ∧
      (dufFrom osH opts records).NumberOfSets
        = (dufFrom osH opts records).Groups.length := by
  obtain ⟨hg, _, hd, hn, _⟩ :=
    assembleResults_fields records.length (dupeGroups osH opts records)
  have hG : (dufFrom osH opts records).Groups
      = resultSets (sortGroups (dupeGroups osH opts records)) := hg
  constructor
  · have hD : (dufFrom osH opts records).Duplicates
        = sumDup (resultSets (sortGroups (dupeGroups osH opts records))) % U64 := hd
    rw [hD, ← hG, Nat.mod_eq_of_lt h1]
  · have hN : (dufFrom osH opts records).NumberOfSets
        = (resultSets (sortGroups (dupeGroups osH opts records))).length % U64 := hn
    rw [hN, ← hG, Nat.mod_eq_of_lt h2]

/-- Witness for C10: one group of three identical files counts 3 duplicate
files (all members, not 2) in 1 set. -/
theorem C10_witness :
    (dufFrom true optsW [f100a, f100b, f100c]).Duplicates = 3 ∧
      (dufFrom true optsW [f100a, f100b, f100c]).NumberOfSets = 1 := by
  obtain ⟨h1, h2⟩ := C10_duplicates_count_all_members true optsW
    [f100a, f100b, f100c] (by decide) (by decide)
  rw [h1, h2]
  constructor
  · decide
  · decide

/-! ### Hard-link filtering argument (claim C3) -/

theorem findHardLinkIdx_none {osH : Bool} :
    ∀ {seen : List (Nat × Nat)} {k : Nat} {l : List FileObj},
      findHardLinkIdx osH seen k l = none ↔
        (l.map (GetDevIno osH)).Nodup ∧
          ∀ d ∈ l.map (GetDevIno osH), d ∉ seen := by
  intro seen k l
  induction l generalizing seen k with
  | nil => simp [findHardLinkIdx]
  | cons fo rest ih =>
    rw [findHardLinkIdx]
    by_cases hin : GetDevIno osH fo ∈ seen
    · rw [if_pos hin]
      simp only [List.map_cons, List.nodup_cons, List.mem_cons]
      constructor
      · intro h
        cases h
      · intro ⟨_, hall⟩
        exact absurd hin (hall _ (Or.inl rfl))
    · rw [if_neg hin]
      rw [ih]
      simp only [List.map_cons, List.nodup_cons, List.mem_cons]
      aesop

theorem findHardLinkIdx_some_split {osH : Bool} :
    ∀ {seen : List (Nat × Nat)} {k : Nat} {l : List FileObj} {i : Nat},
      findHardLinkIdx osH seen k l = some i →
      ∃ l1 fo l2, l = l1 ++ fo :: l2 ∧ l1.length = i - k ∧
        (GetDevIno osH fo ∈ seen ∨
          GetDevIno osH fo ∈ l1.map (GetDevIno osH)) := by
  intro seen k l
  induction l generalizing seen k with
  | nil => intro i h; simp [findHardLinkIdx] at h
  | cons fo rest ih =>
    intro i h
    rw [findHardLinkIdx] at h
    by_cases hin : GetDevIno osH fo ∈ seen
    · rw [if_pos hin] at h
      injection h with h
      exact ⟨[], fo, rest, rfl, by rw [List.length_nil]; omega, Or.inl hin⟩
    · rw [if_neg hin] at h
      have hk := findHardLinkIdx_lt h
      obtain ⟨l1, fo', l2, heq, hlen, hmem⟩ := ih h
      refine ⟨fo :: l1, fo', l2, by rw [heq]; rfl, ?_, ?_⟩
      · rw [List.length_cons]
        omega
      · rcases hmem with hm | hm
        · rcases List.mem_cons.mp hm with he | hs
          · exact Or.inr (by rw [List.map_cons, he]; exact List.mem_cons_self _ _)
          · exact Or.inl hs
        · exact Or.inr (by rw [List.map_cons]; exact List.mem_cons_of_mem _ hm)

theorem eraseIdx_split (l1 : List FileObj) (fo : FileObj) (l2 : List FileObj) :
    (l1 ++ fo :: l2).eraseIdx l1.length = l1 ++ l2 := by
  rw [List.eraseIdx_append_of_length_le (Nat.le_refl _)]
  simp

theorem removeHardLinksAux_sublist (osH : Bool) :
    ∀ (fuel : Nat) (l : List FileObj),
      (removeHardLinksAux osH fuel l).1.Sublist l := by
  intro fuel
  induction fuel with
  | zero => intro l; exact List.Sublist.refl l
  | succ n ih =>
    intro l
    rw [removeHardLinksAux]
    cases h : findHardLinkIdx osH [] 0 l with
    | none => exact List.Sublist.refl l
    | some i =>
      exact (ih (l.eraseIdx i)).trans (List.eraseIdx_sublist l i)

theorem removeHardLinksAux_keys {osH : Bool} :
    ∀ (fuel : Nat) (l : List FileObj), l.length ≤ fuel →
      ((removeHardLinksAux osH fuel l).1.map (GetDevIno osH)).Nodup ∧
        ∀ d ∈ l.map (GetDevIno osH),
          d ∈ (removeHardLinksAux osH fuel l).1.map (GetDevIno osH) := by
  intro fuel
  induction fuel with
  | zero =>
    intro l hl
    have : l = [] := List.length_eq_zero.mp (Nat.le_zero.mp hl)
    subst this
    exact ⟨List.nodup_nil, by intro d hd; exact hd⟩
  | succ n ih =>
    intro l hl
    rw [removeHardLinksAux]
    cases h : findHardLinkIdx osH [] 0 l with
    | none =>
      refine ⟨(findHardLinkIdx_none.mp h).1, fun d hd => hd⟩
    | some i =>
      obtain ⟨l1, fo, l2, heq, hlen, hmem⟩ := findHardLinkIdx_some_split h
      have hmem' : GetDevIno osH fo ∈ l1.map (GetDevIno osH) := by
        rcases hmem with hm | hm
        · exact absurd hm (List.not_mem_nil _)
        · exact hm
      have hi : i = l1.length := by omega
      have herase : l.eraseIdx i = l1 ++ l2 := by
        rw [heq, hi, eraseIdx_split]
      have hlen2 : (l.eraseIdx i).length ≤ n := by
        rw [herase]
        have : l.length = l1.length + (l2.length + 1) := by
          rw [heq, List.length_append, List.length_cons]
        rw [List.length_append]
        omega
      obtain ⟨ihn, ihm⟩ := ih (l.eraseIdx i) hlen2
      refine ⟨ihn, ?_⟩
      intro d hd
      refine ihm d ?_
      rw [herase, List.map_append]
      rw [heq, List.map_append, List.map_cons] at hd
      rcases List.mem_append.mp hd with hd1 | hd2
      · exact List.mem_append.mpr (Or.inl hd1)
      · rcases List.mem_cons.mp hd2 with rfl | hd3
        · exact List.mem_append.mpr (Or.inl hmem')
        · exact List.mem_append.mpr (Or.inr hd3)

theorem removeHardLinks_sublist (osH : Bool) (l : List FileObj) :
    (removeHardLinks osH l).1.Sublist l :=
  removeHardLinksAux_sublist osH l.length l

theorem removeHardLinks_keys {osH : Bool} (l : List FileObj) :
    ((removeHardLinks osH l).1.map (GetDevIno osH)).Nodup ∧
      ∀ d ∈ l.map (GetDevIno osH),
        d ∈ (removeHardLinks osH l).1.map (GetDevIno osH) :=
  removeHardLinksAux_keys l.length l (Nat.le_refl _)

theorem removeHardLinksAux_zero_count {osH : Bool} :
    ∀ (fuel : Nat) (l : List FileObj),
      (removeHardLinksAux osH fuel l).2 = 0 →
      (removeHardLinksAux osH fuel l).1 = l := by
  intro fuel l
  cases fuel with
  | zero => intro _; rfl
  | succ n =>
    rw [removeHardLinksAux]
    cases h : findHardLinkIdx osH [] 0 l with
    | none => intro _; rfl
    | some i => intro hc; simp at hc

theorem removeHardLinks_zero_count {osH : Bool} {l : List FileObj}
    (h : (removeHardLinks osH l).2 = 0) : (removeHardLinks osH l).1 = l :=
  removeHardLinksAux_zero_count l.length l h

/-- Claim C3, pieces (1)-(3) on `initialCleanup`. -/
theorem initialCleanup_false_spec (gs : List (Nat × List FileObj)) :
    initialCleanup false gs
      = (gs.filter (fun p => decide (2 ≤ p.2.length)), 0,
          gs.countP (fun p => decide (p.2.length < 2))) := by
  induction gs with
  | nil => rfl
  | cons p rest ih =>
    obtain ⟨s, l⟩ := p
    rw [initialCleanup, ih]
    by_cases hl : l.length < 2
    · rw [if_pos hl, List.filter_cons, if_neg (by simpa using hl),
        List.countP_cons]
      simp [hl]
    · rw [if_neg hl, if_pos (show (!false) = true from rfl)]
      rw [List.filter_cons, if_pos (by simpa using Nat.le_of_not_lt hl),
        List.countP_cons]
      simp [hl]

theorem initialCleanup_buckets_ge2 {osH : Bool} :
    ∀ (gs : List (Nat × List FileObj)) (p : Nat × List FileObj),
      p ∈ (initialCleanup osH gs).1 → 2 ≤ p.2.length := by
  intro gs
  induction gs with
  | nil => intro p hp; simp [initialCleanup] at hp
  | cons q rest ih =>
    obtain ⟨s, l⟩ := q
    intro p hp
    rw [initialCleanup] at hp
    by_cases hl : l.length < 2
    · rw [if_pos hl] at hp
      exact ih p hp
    · rw [if_neg hl] at hp
      cases osH with
      | false =>
        rw [if_pos (show (!false) = true from rfl)] at hp
        rcases List.mem_cons.mp hp with rfl | hp'
        · exact Nat.le_of_not_lt hl
        · exact ih p hp'
      | true =>
        rw [if_neg (show ¬ (!true) = true by decide)] at hp
        by_cases hc : 0 < (removeHardLinks true l).2 ∧
            (removeHardLinks true l).1.length < 2
        · rw [if_pos hc] at hp
          exact ih p hp
        · rw [if_neg hc] at hp
          rcases List.mem_cons.mp hp with rfl | hp'
          · show 2 ≤ (removeHardLinks true l).1.length
            by_cases hz : (removeHardLinks true l).2 = 0
            · rw [removeHardLinks_zero_count hz]
              exact Nat.le_of_not_lt hl
            · have h0 : 0 < (removeHardLinks true l).2 := Nat.pos_of_ne_zero hz
              omega
          · exact ih p hp'

theorem initialCleanup_mem {osH : Bool} :
    ∀ (gs : List (Nat × List FileObj)) (p : Nat × List FileObj),
      p ∈ (initialCleanup osH gs).1 →
      ∃ l, (p.1, l) ∈ gs ∧ p.2.Sublist l := by
  intro gs
  induction gs with
  | nil => intro p hp; simp [initialCleanup] at hp
  | cons q rest ih =>
    obtain ⟨s, l⟩ := q
    intro p hp
    rw [initialCleanup] at hp
    by_cases hl : l.length < 2
    · rw [if_pos hl] at hp
      obtain ⟨l', h1, h2⟩ := ih p hp
      exact ⟨l', List.mem_cons_of_mem _ h1, h2⟩
    · rw [if_neg hl] at hp
      cases osH with
      | false =>
        rw [if_pos (show (!false) = true from rfl)] at hp
        rcases List.mem_cons.mp hp with rfl | hp'
        · exact ⟨l, List.mem_cons_self _ _, List.Sublist.refl l⟩
        · obtain ⟨l', h1, h2⟩ := ih p hp'
          exact ⟨l', List.mem_cons_of_mem _ h1, h2⟩
      | true =>
        rw [if_neg (show ¬ (!true) = true by decide)] at hp
        by_cases hc : 0 < (removeHardLinks true l).2 ∧
            (removeHardLinks true l).1.length < 2
        · rw [if_pos hc] at hp
          obtain ⟨l', h1, h2⟩ := ih p hp
          exact ⟨l', List.mem_cons_of_mem _ h1, h2⟩
        · rw [if_neg hc] at hp
          rcases List.mem_cons.mp hp with rfl | hp'
          · exact ⟨l, List.mem_cons_self _ _, removeHardLinks_sublist true l⟩
          · obtain ⟨l', h1, h2⟩ := ih p hp'
            exact ⟨l', List.mem_cons_of_mem _ h1, h2⟩

/-! ### Bucket-map membership lemmas -/

theorem lookup_mem : ∀ {gs : List (Nat × List FileObj)} {k : Nat}
    {l : List FileObj}, gs.lookup k = some l → (k, l) ∈ gs := by
  intro gs
  induction gs with
  | nil => intro k l h; simp [List.lookup] at h
  | cons p rest ih =>
    obtain ⟨s, bl⟩ := p
    intro k l h
    rw [List.lookup] at h
    cases hbeq : (k == s) with
    | true =>
      rw [hbeq] at h
      injection h with h
      have hk : k = s := beq_iff_eq.mp hbeq
      subst hk
      subst h
      exact List.mem_cons_self _ _
    | false =>
      rw [hbeq] at h
      exact List.mem_cons_of_mem _ (ih h)

theorem lookup_none : ∀ {gs : List (Nat × List FileObj)} {k : Nat},
    gs.lookup k = none → ∀ l, (k, l) ∉ gs := by
  intro gs
  induction gs with
  | nil => intro k _ l h; simp at h
  | cons p rest ih =>
    obtain ⟨s, bl⟩ := p
    intro k h l hmem
    rw [List.lookup] at h
    cases hbeq : (k == s) with
    | true =>
      rw [hbeq] at h
      cases h
    | false =>
      rw [hbeq] at h
      rcases List.mem_cons.mp hmem with he | hm
      · have : k = s := congrArg Prod.fst he
        rw [this] at hbeq
        simp at hbeq
      · exact ih h l hm

theorem addToSizeGroups_mem {S : List FileObj} {fo : FileObj} (hfo : fo ∈ S) :
    ∀ {gs : List (Nat × List FileObj)},
      (∀ p ∈ gs, ∀ f ∈ p.2, f ∈ S ∧ f.size = p.1) →
      ∀ p ∈ addToSizeGroups gs fo, ∀ f ∈ p.2, f ∈ S ∧ f.size = p.1 := by
  intro gs
  induction gs with
  | nil =>
    intro _ p hp f hf
    rw [addToSizeGroups] at hp
    rcases List.mem_cons.mp hp with rfl | h
    · rcases List.mem_singleton.mp hf with rfl
      exact ⟨hfo, rfl⟩
    · simp at h
  | cons q rest ih =>
    intro hinv p hp f hf
    obtain ⟨s, l⟩ := q
    rw [addToSizeGroups] at hp
    by_cases hs : s = fo.size
    · rw [if_pos hs] at hp
      rcases List.mem_cons.mp hp with rfl | h
      · rcases List.mem_append.mp hf with h1 | h2
        · exact hinv (s, l) (List.mem_cons_self _ _) f h1
        · rcases List.mem_singleton.mp h2 with rfl
          exact ⟨hfo, hs.symm⟩
      · exact hinv p (List.mem_cons_of_mem _ h) f hf
    · rw [if_neg hs] at hp
      rcases List.mem_cons.mp hp with rfl | h
      · exact hinv (s, l) (List.mem_cons_self _ _) f hf
      · exact ih (fun q hq => hinv q (List.mem_cons_of_mem _ hq)) p h f hf

theorem groupBySize_mem {records : List FileObj} :
    ∀ p ∈ groupBySize records, ∀ f ∈ p.2, f ∈ records ∧ f.size = p.1 := by
  rw [groupBySize]
  have main : ∀ (todo : List FileObj) (acc : List (Nat × List FileObj))
      (S : List FileObj), (∀ x ∈ todo, x ∈ S) →
      (∀ p ∈ acc, ∀ f ∈ p.2, f ∈ S ∧ f.size = p.1) →
      ∀ p ∈ todo.foldl addToSizeGroups acc, ∀ f ∈ p.2, f ∈ S ∧ f.size = p.1 := by
    intro todo
    induction todo with
    | nil => intro acc S _ hacc; exact hacc
    | cons x rest ih =>
      intro acc S htodo hacc
      rw [List.foldl_cons]
      refine ih _ S (fun y hy => htodo y (List.mem_cons_of_mem _ hy)) ?_
      exact addToSizeGroups_mem (htodo x (List.mem_cons_self _ _)) hacc
  exact main records [] records (fun x hx => hx) (by intro p hp; simp at hp)

/-! ### dropEmptyFiles lemmas -/

theorem dropEmptyFiles_eq_none {ie : Bool} {gs : List (Nat × List FileObj)}
    (h : gs.lookup 0 = none) : dropEmptyFiles ie gs = ([], gs, 0) := by
  rw [dropEmptyFiles, h]

theorem dropEmptyFiles_eq_some {ie : Bool} {gs : List (Nat × List FileObj)}
    {l : List FileObj} (h : gs.lookup 0 = some l) :
    dropEmptyFiles ie gs =
      (if (!ie) = true then
        ((if 1 < l.length then l else []), removeKey 0 gs, 0)
      else ([], removeKey 0 gs, l.length)) := by
  rw [dropEmptyFiles, h]

theorem dropEmptyFiles_empties {ie : Bool} {gs : List (Nat × List FileObj)} :
    ∀ fo ∈ (dropEmptyFiles ie gs).1,
      ∃ l, (0, l) ∈ gs ∧ fo ∈ l ∧ ie = false ∧
        (dropEmptyFiles ie gs).1 = l ∧ 1 < l.length := by
  intro fo hfo
  cases h : gs.lookup 0 with
  | none =>
    rw [dropEmptyFiles_eq_none h] at hfo
    simp at hfo
  | some l =>
    rw [dropEmptyFiles_eq_some h] at hfo ⊢
    cases ie with
    | false =>
      rw [if_pos (show (!false) = true from rfl)] at hfo ⊢
      by_cases hlen : 1 < l.length
      · rw [if_pos hlen] at hfo ⊢
        exact ⟨l, lookup_mem h, hfo, rfl, rfl, hlen⟩
      · rw [if_neg hlen] at hfo
        simp at hfo
    | true =>
      rw [if_neg (show ¬ (!true) = true by decide)] at hfo
      simp at hfo

theorem dropEmptyFiles_rest {ie : Bool} {gs : List (Nat × List FileObj)} :
    ∀ p ∈ (dropEmptyFiles ie gs).2.1, p ∈ gs ∧ p.1 ≠ 0 := by
  intro p hp
  cases h : gs.lookup 0 with
  | none =>
    rw [dropEmptyFiles_eq_none h] at hp
    refine ⟨hp, ?_⟩
    intro h0
    exact lookup_none h p.2 (by rw [← h0]; exact hp)
  | some l =>
    rw [dropEmptyFiles_eq_some h] at hp
    have hp' : p ∈ removeKey 0 gs := by
      cases ie with
      | false => rw [if_pos (show (!false) = true from rfl)] at hp; exact hp
      | true => rw [if_neg (show ¬ (!true) = true by decide)] at hp; exact hp
    rw [removeKey, List.mem_filter] at hp'
    refine ⟨hp'.1, ?_⟩
    have := hp'.2
    simpa using this

/-! ### Paths in the final groups come from the pipeline's working set -/

theorem mem_sortPaths {l : List FileObj} {f : FileObj} :
    f ∈ sortPaths l ↔ f ∈ l :=
  (List.perm_insertionSort _ l).mem_iff

theorem mem_sortGroups {result : List (List FileObj)} {g : List FileObj} :
    g ∈ sortGroups result ↔ ∃ g0 ∈ result, g = sortPaths g0 := by
  rw [sortGroups]
  rw [(List.perm_insertionSort _ (result.map sortPaths)).mem_iff]
  rw [List.mem_map]
  constructor
  · rintro ⟨g0, h1, rfl⟩
    exact ⟨g0, h1, rfl⟩
  · rintro ⟨g0, h1, rfl⟩
    exact ⟨g0, h1, rfl⟩

theorem mem_resultSets {groups : List (List FileObj)} {rs : ResultSet}
    (h : rs ∈ resultSets groups) :
    ∃ g ∈ groups, g ≠ [] ∧ rs.Paths = g.map FileObj.FilePath ∧
      ∃ f0, g.head? = some f0 ∧ rs.Size = f0.size := by
  rw [resultSets, List.mem_filterMap] at h
  obtain ⟨g, hg, hrs⟩ := h
  cases g with
  | nil => simp [resultSet1] at hrs
  | cons f t =>
    rw [resultSet1] at hrs
    injection hrs with hrs
    refine ⟨f :: t, hg, by simp, by rw [← hrs], f, rfl, by rw [← hrs]⟩

/-- Every path reported in a `ResultSet` of `assembleResults` is the path
of a member of one of the supplied groups. -/
theorem mem_groups_path {c : Nat} {result : List (List FileObj)}
    {rs : ResultSet} {pth : String}
    (h1 : rs ∈ (assembleResults c result).Groups) (h2 : pth ∈ rs.Paths) :
    ∃ g ∈ result, ∃ fo ∈ g, fo.FilePath = pth := by
  have hg := (assembleResults_fields c result).1
  rw [hg] at h1
  obtain ⟨g', hg', _, hpaths, _⟩ := mem_resultSets h1
  rw [hpaths] at h2
  obtain ⟨fo, hfo, hfop⟩ := List.mem_map.mp h2
  obtain ⟨g0, hg0, rfl⟩ := mem_sortGroups.mp hg'
  exact ⟨g0, hg0, fo, mem_sortPaths.mp hfo, hfop⟩

/-- Every member of a `dupeGroups` group is an empty-file record or a
record of a post-cleanup bucket. -/
theorem dupeGroups_mem {osH : Bool} {opts : Options} {records : List FileObj}
    {g : List FileObj} (hg : g ∈ dupeGroups osH opts records) :
    ∀ fo ∈ g,
      fo ∈ (dropEmptyFiles opts.IgnoreEmpty (groupBySize records)).1 ∨
        ∃ p ∈ (initialCleanup osH
            (dropEmptyFiles opts.IgnoreEmpty (groupBySize records)).2.1).1,
          fo ∈ p.2 := by
  intro fo hfo
  rw [dupeGroups, List.mem_append] at hg
  rcases hg with hg | hg
  · left
    by_cases hc : 0 < (dropEmptyFiles opts.IgnoreEmpty (groupBySize records)).1.length
    · rw [if_pos hc] at hg
      rcases List.mem_singleton.mp hg with rfl
      exact hfo
    · rw [if_neg hc] at hg
      simp at hg
  · right
    obtain ⟨_, _, p, hp, hmem⟩ := findDupes_mem hg
    exact ⟨p, hp, hmem fo hfo⟩

/-! ### Claim C3 -/

def fH1 : FileObj :=
  { FilePath := "h1", size := 5, dev := 1, ino := 7,
    content := some [1, 2, 3, 4, 5] }

def fH2 : FileObj :=
  { FilePath := "h2", size := 5, dev := 1, ino := 7,
    content := some [1, 2, 3, 4, 5] }

/-- C3: (1) with inode support, a device/inode identity occurring N ≥ 2
times in a bucket has exactly one representative after hard-link filtering;
(2) without inode support the cleanup removes no record — it only deletes
sub-2-record buckets, leaving every surviving bucket untouched and counting
no hard links; (3) after cleanup every surviving bucket has ≥ 2 records;
(4) a record of the working set that survives neither as an empty file nor
in any cleaned bucket contributes its path to no result group. -/
theorem C3_hard_link_filtering :
    (∀ (l : List FileObj) (d : Nat × Nat),
        2 ≤ ((l.map (GetDevIno true)).filter (fun x => decide (x = d))).length →
        (((removeHardLinks true l).1.map
            (GetDevIno true)).filter (fun x => decide (x = d))).length = 1) ∧
      (∀ gs : List (Nat × List FileObj),
          initialCleanup false gs
            = (gs.filter (fun p => decide (2 ≤ p.2.length)), 0,
                gs.countP (fun p => decide (p.2.length < 2)))) ∧
      (∀ (osH : Bool) (gs : List (Nat × List FileObj)),
          ∀ p ∈ (initialCleanup osH gs).1, 2 ≤ p.2.length) ∧
      (∀ (osH : Bool) (opts : Options) (records : List FileObj)
          (fo : FileObj),
          (records.map FileObj.FilePath).Nodup → fo ∈ records →
          fo ∉ (dropEmptyFiles opts.IgnoreEmpty (groupBySize records)).1 →
          (∀ p ∈ (initialCleanup osH
              (dropEmptyFiles opts.IgnoreEmpty (groupBySize records)).2.1).1,
            fo ∉ p.2) →
          ∀ rs ∈ (dufFrom osH opts records).Groups,
            fo.FilePath ∉ rs.Paths) := by
  have filter_le_one : ∀ (d : Nat × Nat) (xs : List (Nat × Nat)), xs.Nodup →
      (xs.filter (fun x => decide (x = d))).length ≤ 1 := by
    intro d xs
    induction xs with
    | nil => intro _; simp
    | cons x t ih =>
      intro hnd
      rw [List.filter_cons]
      obtain ⟨hx, hndt⟩ := List.nodup_cons.mp hnd
      by_cases h : x = d
      · rw [if_pos (by simpa using h)]
        have hempty : t.filter (fun x => decide (x = d)) = [] := by
          by_contra hne
          obtain ⟨y, hy⟩ := List.exists_mem_of_ne_nil _ hne
          obtain ⟨hyt, hyd⟩ := List.mem_filter.mp hy
          have : y = d := by simpa using hyd
          rw [← h] at this
          exact hx (this ▸ hyt)
        rw [hempty]
        simp
      · rw [if_neg (by simpa using h)]
        exact ih hndt
  refine ⟨?_, initialCleanup_false_spec, fun osH gs => initialCleanup_buckets_ge2 gs, ?_⟩
  · intro l d hcount
    obtain ⟨hnodup, hmem⟩ := @removeHardLinks_keys true l
    have hdl : d ∈ l.map (GetDevIno true) := by
      have h2 : ((l.map (GetDevIno true)).filter (fun x => decide (x = d))) ≠ [] := by
        intro hc
        rw [hc] at hcount
        simp at hcount
      obtain ⟨y, hy⟩ := List.exists_mem_of_ne_nil _ h2
      obtain ⟨hyl, hyd⟩ := List.mem_filter.mp hy
      have : y = d := by simpa using hyd
      exact this ▸ hyl
    have hdres : d ∈ (removeHardLinks true l).1.map (GetDevIno true) :=
      hmem d hdl
    have hge : 1 ≤ (((removeHardLinks true l).1.map
        (GetDevIno true)).filter (fun x => decide (x = d))).length := by
      have : d ∈ ((removeHardLinks true l).1.map
          (GetDevIno true)).filter (fun x => decide (x = d)) :=
        List.mem_filter.mpr ⟨hdres, by simp⟩
      exact List.length_pos_of_mem this
    have hle := filter_le_one d _ hnodup
    omega
  · intro osH opts records fo hnodup hfo hnotempty hnotbucket rs hrs hpath
    obtain ⟨g, hg, fo', hfo', hfop⟩ := mem_groups_path hrs hpath
    have hfo'records : fo' ∈ records ∧ (fo' ∈ (dropEmptyFiles opts.IgnoreEmpty
        (groupBySize records)).1 ∨ ∃ p ∈ (initialCleanup osH
          (dropEmptyFiles opts.IgnoreEmpty (groupBySize records)).2.1).1,
        fo' ∈ p.2) := by
      rcases dupeGroups_mem hg fo' hfo' with hcase | hcase
      · obtain ⟨l0, hl0, hfo'l0, _⟩ := dropEmptyFiles_empties fo' hcase
        exact ⟨(groupBySize_mem (0, l0) hl0 fo' hfo'l0).1, Or.inl hcase⟩
      · obtain ⟨p, hp, hfo'p⟩ := hcase
        obtain ⟨l, hl, hsub⟩ := initialCleanup_mem _ p hp
        have hlg := (dropEmptyFiles_rest (p.1, l) hl).1
        have : fo' ∈ l := hsub.subset hfo'p
        exact ⟨(groupBySize_mem (p.1, l) hlg fo' this).1, Or.inr ⟨p, hp, hfo'p⟩⟩
    have heq : fo' = fo :=
      List.inj_on_of_nodup_map hnodup hfo'records.1 hfo hfop
    rcases hfo'records.2 with hcase | ⟨p, hp, hmem⟩
    · rw [heq] at hcase
      exact hnotempty hcase
    · rw [heq] at hmem
      exact hnotbucket p hp hmem

/-- Witness for C3 at a concrete input: two hard links (same dev/inode) of
one 5-byte file; one representative remains after filtering, and the
filtered-out record's path reaches no result group. -/
theorem C3_witness :
    ((([fH1, fH2] : List FileObj).map (GetDevIno true)).filter
        (fun x => decide (x = (1, 7)))).length = 2 ∧
      (((removeHardLinks true [fH1, fH2]).1.map (GetDevIno true)).filter
        (fun x => decide (x = (1, 7)))).length = 1 ∧
      ∀ rs ∈ (dufFrom true optsW [fH1, fH2]).Groups, fH2.FilePath ∉ rs.Paths := by
  refine ⟨by decide, ?_, ?_⟩
  · exact C3_hard_link_filtering.1 [fH1, fH2] (1, 7) (by decide)
  · exact C3_hard_link_filtering.2.2.2 true optsW [fH1, fH2] fH2
      (by decide) (by decide) (by decide) (by decide)

/-! ### The size-0 bucket (claim C4) -/

/-- The bucket stored under a key (empty if the key is absent). -/
def bucketOf (gs : List (Nat × List FileObj)) (s : Nat) : List FileObj :=
  (gs.lookup s).getD []

theorem bucketOf_add (gs : List (Nat × List FileObj)) (fo : FileObj)
    (s : Nat) :
    bucketOf (addToSizeGroups gs fo) s
      = bucketOf gs s ++ (if fo.size = s then [fo] else []) := by
  induction gs with
  | nil =>
    by_cases hfs : fo.size = s
    · have hb : (s == fo.size) = true := beq_iff_eq.mpr hfs.symm
      simp [addToSizeGroups, bucketOf, List.lookup, hb, hfs]
    · have hb : (s == fo.size) = false := by
        simp
        exact fun h => hfs h.symm
      simp [addToSizeGroups, bucketOf, List.lookup, hb, hfs]
  | cons q rest ih =>
    obtain ⟨k, l⟩ := q
    rw [addToSizeGroups]
    by_cases hk : k = fo.size
    · rw [if_pos hk]
      by_cases hs : s = k
      · have hb : (s == k) = true := beq_iff_eq.mpr hs
        have hfs : fo.size = s := by omega
        simp [bucketOf, List.lookup, hb, hfs]
      · have hb : (s == k) = false := by simp [hs]
        have hfs : ¬ fo.size = s := by omega
        simp [bucketOf, List.lookup, hb, hfs]
    · rw [if_neg hk]
      by_cases hs : s = k
      · have hb : (s == k) = true := beq_iff_eq.mpr hs
        have hfs : ¬ fo.size = s := by omega
        simp [bucketOf, List.lookup, hb, hfs]
      · have hb : (s == k) = false := by simp [hs]
        have hrec := ih
        simp only [bucketOf, List.lookup, hb] at hrec ⊢
        exact hrec

theorem bucketOf_groupBySize (records : List FileObj) (s : Nat) :
    bucketOf (groupBySize records) s
      = records.filter (fun f => decide (f.size = s)) := by
  rw [groupBySize]
  have main : ∀ (todo : List FileObj) (acc : List (Nat × List FileObj)),
      bucketOf (todo.foldl addToSizeGroups acc) s
        = bucketOf acc s ++ todo.filter (fun f => decide (f.size = s)) := by
    intro todo
    induction todo with
    | nil => intro acc; simp
    | cons x rest ih =>
      intro acc
      rw [List.foldl_cons, ih, bucketOf_add, List.filter_cons]
      by_cases hx : x.size = s
      · rw [if_pos hx, if_pos (by simpa using hx)]
        simp
      · rw [if_neg hx, if_neg (by simpa using hx)]
        simp
  rw [main records []]
  rfl

theorem bucketOf_lookup_some {gs : List (Nat × List FileObj)} {s : Nat}
    {l : List FileObj} (h : gs.lookup s = some l) : bucketOf gs s = l := by
  rw [bucketOf, h]
  rfl

theorem bucketOf_lookup_none {gs : List (Nat × List FileObj)} {s : Nat}
    (h : gs.lookup s = none) : bucketOf gs s = [] := by
  rw [bucketOf, h]
  rfl

/-- Groups produced by the checksum stage never hold a size-0 record (their
bucket keys survive `dropEmptyFiles`). -/
theorem findDupes_size_ne_zero {osH : Bool} {opts : Options}
    {records : List FileObj} {g : List FileObj}
    (hg : g ∈ findDupes osH opts.SkipPartial (initialCleanup osH
      (dropEmptyFiles opts.IgnoreEmpty (groupBySize records)).2.1).1) :
    ∀ f ∈ g, f.size ≠ 0 := by
  intro f hf
  obtain ⟨_, _, p, hp, hmem⟩ := findDupes_mem hg
  obtain ⟨l, hl, hsub⟩ := initialCleanup_mem _ p hp
  obtain ⟨hlg, hkey⟩ := dropEmptyFiles_rest (p.1, l) hl
  have := (groupBySize_mem (p.1, l) hlg f (hsub.subset (hmem f hf))).2
  rw [this]
  exact hkey

/-- The head of a path-sorted group is a member of the group. -/
theorem sortPaths_head_mem {g : List FileObj} {f0 : FileObj}
    (h : (sortPaths g).head? = some f0) : f0 ∈ g := by
  cases hs : sortPaths g with
  | nil => rw [hs] at h; cases h
  | cons a t =>
    rw [hs] at h
    injection h with h
    subst h
    exact mem_sortPaths.mp (by rw [hs]; exact List.mem_cons_self _ _)

/-- Sizes of the `ResultSet`s of the final output: each comes from a member
of the originating group. -/
theorem dufFrom_group_sizes {osH : Bool} {opts : Options}
    {records : List FileObj} {rs : ResultSet}
    (h : rs ∈ (dufFrom osH opts records).Groups) :
    ∃ g ∈ dupeGroups osH opts records, g ≠ [] ∧
      rs.Paths = (sortPaths g).map FileObj.FilePath ∧
      ∃ f0 ∈ g, rs.Size = f0.size := by
  have hg := (assembleResults_fields records.length
    (dupeGroups osH opts records)).1
  rw [show (dufFrom osH opts records).Groups
      = (assembleResults records.length (dupeGroups osH opts records)).Groups
      from rfl, hg] at h
  obtain ⟨g', hg', hne, hpaths, f0, hhead, hsize⟩ := mem_resultSets h
  obtain ⟨g0, hg0, rfl⟩ := mem_sortGroups.mp hg'
  refine ⟨g0, hg0, ?_, hpaths, f0, sortPaths_head_mem hhead, hsize⟩
  intro hc
  rw [hc] at hne
  exact hne (by rw [sortPaths]; rfl)

/-- Groups whose members all have nonzero size contribute no size-0
`ResultSet`. -/
theorem resultSets_countP_zero {groups : List (List FileObj)}
    (h : ∀ g ∈ groups, ∀ f ∈ g, f.size ≠ 0) :
    (resultSets (groups.map sortPaths)).countP (fun rs => rs.Size == 0) = 0 := by
  rw [List.countP_eq_zero]
  intro rs hrs
  obtain ⟨g', hg', _, _, f0, hhead, hsize⟩ := mem_resultSets hrs
  obtain ⟨g, hg, rfl⟩ := List.mem_map.mp hg'
  have hf0 : f0 ∈ g := sortPaths_head_mem hhead
  have hnz := h g hg f0 hf0
  simp only [beq_iff_eq, hsize]
  exact hnz

/-- The count of size-0 `ResultSet`s in the final output, computed on the
unsorted group list. -/
theorem dufFrom_countP_size0 (osH : Bool) (opts : Options)
    (records : List FileObj) :
    (dufFrom osH opts records).Groups.countP (fun rs => rs.Size == 0)
      = (resultSets ((dupeGroups osH opts records).map sortPaths)).countP
          (fun rs => rs.Size == 0) := by
  have hg := (assembleResults_fields records.length
    (dupeGroups osH opts records)).1
  rw [show (dufFrom osH opts records).Groups
      = (assembleResults records.length (dupeGroups osH opts records)).Groups
      from rfl, hg]
  exact ((List.perm_insertionSort _ _).filterMap resultSet1).countP_eq _

/-- The empty-file list under `IgnoreEmpty = false` with at least two empty
records is exactly the size-0 records in walk order. -/
theorem dropEmptyFiles_empties_eq {records : List FileObj}
    (h2 : 2 ≤ (records.filter (fun f => decide (f.size = 0))).length) :
    (dropEmptyFiles false (groupBySize records)).1
      = records.filter (fun f => decide (f.size = 0)) := by
  cases hlk : (groupBySize records).lookup 0 with
  | none =>
    have := bucketOf_lookup_none hlk
    rw [bucketOf_groupBySize] at this
    rw [this] at h2
    simp at h2
  | some l0 =>
    have hl0 : l0 = records.filter (fun f => decide (f.size = 0)) := by
      have := bucketOf_lookup_some hlk
      rw [bucketOf_groupBySize] at this
      exact this.symm
    rw [dropEmptyFiles_eq_some hlk]
    rw [if_pos (show (!false) = true from rfl)]
    rw [if_pos (show 1 < l0.length by rw [hl0]; omega)]
    exact hl0

theorem dupeGroups_eq (osH : Bool) (opts : Options) (records : List FileObj) :
    dupeGroups osH opts records =
      (if 0 < (dropEmptyFiles opts.IgnoreEmpty (groupBySize records)).1.length
        then [(dropEmptyFiles opts.IgnoreEmpty (groupBySize records)).1]
        else [])
        ++ findDupes osH opts.SkipPartial
          (initialCleanup osH
            (dropEmptyFiles opts.IgnoreEmpty (groupBySize records)).2.1).1 := rfl

theorem dropEmptyFiles_empties_nil {records : List FileObj} {ie : Bool}
    (h : (records.filter (fun f => decide (f.size = 0))).length ≤ 1) :
    (dropEmptyFiles ie (groupBySize records)).1 = [] := by
  cases hlk : (groupBySize records).lookup 0 with
  | none => rw [dropEmptyFiles_eq_none hlk]
  | some l0 =>
    have hl0 : l0 = records.filter (fun f => decide (f.size = 0)) := by
      have := bucketOf_lookup_some hlk
      rw [bucketOf_groupBySize] at this
      exact this.symm
    rw [dropEmptyFiles_eq_some hlk]
    cases ie with
    | true => rw [if_neg (show ¬ (!true) = true by decide)]
    | false =>
      rw [if_pos (show (!false) = true from rfl)]
      rw [if_neg (show ¬ 1 < l0.length by rw [hl0]; omega)]

/-! ### Claim C4 -/

def fE1 : FileObj :=
  { FilePath := "e1", size := 0, dev := 1, ino := 11, content := none }

def fE2 : FileObj :=
  { FilePath := "e2", size := 0, dev := 1, ino := 12, content := none }

/-- C4: the size-0 bucket never reaches the checksum stage (every surviving
bucket key is nonzero); with `IgnoreEmpty` the empty records are discarded
and counted; without it, ≥ 2 empty records become exactly one size-0 result
group listing exactly their paths — with no readability assumption on the
empty files, i.e. no checksum is ever computed for them; a lone empty file
yields no size-0 group. -/
theorem C4_empty_files :
    (∀ (ie : Bool) (gs : List (Nat × List FileObj)),
        ∀ p ∈ (dropEmptyFiles ie gs).2.1, p.1 ≠ 0) ∧
      (∀ records : List FileObj,
          (dropEmptyFiles true (groupBySize records)).2.2
              = (records.filter (fun f => decide (f.size = 0))).length ∧
            (dropEmptyFiles true (groupBySize records)).1 = []) ∧
      (∀ (osH : Bool) (opts : Options) (records : List FileObj),
          opts.IgnoreEmpty = false →
          2 ≤ (records.filter (fun f => decide (f.size = 0))).length →
          (dufFrom osH opts records).Groups.countP
              (fun rs => rs.Size == 0) = 1 ∧
            ∃ rs ∈ (dufFrom osH opts records).Groups, rs.Size = 0 ∧
              rs.Paths = (sortPaths (records.filter
                (fun f => decide (f.size = 0)))).map FileObj.FilePath) ∧
      (∀ (osH : Bool) (opts : Options) (records : List FileObj),
          (records.filter (fun f => decide (f.size = 0))).length ≤ 1 →
          (dufFrom osH opts records).Groups.countP
            (fun rs => rs.Size == 0) = 0) := by
  refine ⟨fun ie gs p hp => (dropEmptyFiles_rest p hp).2, ?_, ?_, ?_⟩
  · intro records
    cases hlk : (groupBySize records).lookup 0 with
    | none =>
      have hb := bucketOf_lookup_none hlk
      rw [bucketOf_groupBySize] at hb
      rw [dropEmptyFiles_eq_none hlk, hb]
      exact ⟨rfl, rfl⟩
    | some l0 =>
      have hl0 : l0 = records.filter (fun f => decide (f.size = 0)) := by
        have := bucketOf_lookup_some hlk
        rw [bucketOf_groupBySize] at this
        exact this.symm
      rw [dropEmptyFiles_eq_some hlk,
        if_neg (show ¬ (!true) = true by decide), ← hl0]
      exact ⟨rfl, rfl⟩
  · intro osH opts records hIE h2
    have hE : (dropEmptyFiles opts.IgnoreEmpty (groupBySize records)).1
        = records.filter (fun f => decide (f.size = 0)) := by
      rw [hIE]
      exact dropEmptyFiles_empties_eq h2
    have hstruct : dupeGroups osH opts records
        = (dropEmptyFiles opts.IgnoreEmpty (groupBySize records)).1 ::
          findDupes osH opts.SkipPartial
            (initialCleanup osH
              (dropEmptyFiles opts.IgnoreEmpty (groupBySize records)).2.1).1 := by
      rw [dupeGroups_eq, if_pos (by rw [hE]; omega)]
      rfl
    have hnonempty : sortPaths
        (dropEmptyFiles opts.IgnoreEmpty (groupBySize records)).1 ≠ [] := by
      intro hc
      have := (List.perm_insertionSort
        (fun a b => byFilePathNameLE a b = true)
        (dropEmptyFiles opts.IgnoreEmpty (groupBySize records)).1).length_eq
      rw [show sortPaths (dropEmptyFiles opts.IgnoreEmpty
        (groupBySize records)).1 = List.insertionSort
          (fun a b => byFilePathNameLE a b = true)
          (dropEmptyFiles opts.IgnoreEmpty (groupBySize records)).1
        from rfl] at hc
      rw [hc] at this
      rw [hE] at this
      simp at this
      omega
    obtain ⟨f0, t0, hft⟩ : ∃ f0 t0,
        sortPaths (dropEmptyFiles opts.IgnoreEmpty
          (groupBySize records)).1 = f0 :: t0 := by
      cases hs : sortPaths (dropEmptyFiles opts.IgnoreEmpty
          (groupBySize records)).1 with
      | nil => exact absurd hs hnonempty
      | cons a t => exact ⟨a, t, rfl⟩
    have hf0size : f0.size = 0 := by
      have hf0mem : f0 ∈ (dropEmptyFiles opts.IgnoreEmpty
          (groupBySize records)).1 := by
        refine mem_sortPaths.mp ?_
        rw [hft]
        exact List.mem_cons_self _ _
      rw [hE] at hf0mem
      have := (List.mem_filter.mp hf0mem).2
      simpa using this
    have hrs0 : resultSet1 (sortPaths (dropEmptyFiles opts.IgnoreEmpty
        (groupBySize records)).1) = some
          { Size := f0.size,
            Paths := (sortPaths (dropEmptyFiles opts.IgnoreEmpty
              (groupBySize records)).1).map FileObj.FilePath } := by
      rw [hft, resultSet1, ← hft]
    have hcount0 := @resultSets_countP_zero
      (findDupes osH opts.SkipPartial
        (initialCleanup osH
          (dropEmptyFiles opts.IgnoreEmpty (groupBySize records)).2.1).1)
      (fun g hg f hf => findDupes_size_ne_zero hg f hf)
    have resultSets_cons_some : ∀ {g : List FileObj}
        {rest : List (List FileObj)} {rs : ResultSet},
        resultSet1 g = some rs →
        resultSets (g :: rest) = rs :: resultSets rest := by
      intro g rest rs h
      rw [resultSets, List.filterMap_cons_some h]
      rfl
    constructor
    · rw [dufFrom_countP_size0, hstruct, List.map_cons,
        resultSets_cons_some hrs0, List.countP_cons, hcount0,
        if_pos (by simp [hf0size])]
    · refine ⟨ResultSet.mk f0.size ((sortPaths (dropEmptyFiles
          opts.IgnoreEmpty (groupBySize records)).1).map FileObj.FilePath),
        ?_, ?_, ?_⟩
      · have hgmem : sortPaths (dropEmptyFiles opts.IgnoreEmpty
            (groupBySize records)).1 ∈ sortGroups (dupeGroups osH opts records) := by
          refine mem_sortGroups.mpr ?_
          refine ⟨(dropEmptyFiles opts.IgnoreEmpty (groupBySize records)).1, ?_, rfl⟩
          rw [hstruct]
          exact List.mem_cons_self _ _
        have hg := (assembleResults_fields records.length
          (dupeGroups osH opts records)).1
        rw [show (dufFrom osH opts records).Groups
          = (assembleResults records.length
            (dupeGroups osH opts records)).Groups from rfl, hg]
        exact List.mem_filterMap.mpr ⟨_, hgmem, hrs0⟩
      · exact hf0size
      · show (sortPaths (dropEmptyFiles opts.IgnoreEmpty
          (groupBySize records)).1).map FileObj.FilePath = _
        rw [hE]
  · intro osH opts records h1
    have hE : (dropEmptyFiles opts.IgnoreEmpty (groupBySize records)).1 = [] :=
      dropEmptyFiles_empties_nil h1
    have hstruct : dupeGroups osH opts records
        = findDupes osH opts.SkipPartial
            (initialCleanup osH
              (dropEmptyFiles opts.IgnoreEmpty (groupBySize records)).2.1).1 := by
      rw [dupeGroups_eq, if_neg (by rw [hE]; simp)]
      rfl
    rw [dufFrom_countP_size0, hstruct]
    exact resultSets_countP_zero (fun g hg f hf => findDupes_size_ne_zero hg f hf)

/-- Witness for C4: two zero-length files whose contents are not even
readable (`content = none`) still form one size-0 group with both paths —
no checksum is computed for them. -/
theorem C4_witness :
    (dufFrom true optsW [fE1, fE2]).Groups.countP (fun rs => rs.Size == 0) = 1 ∧
      ∃ rs ∈ (dufFrom true optsW [fE1, fE2]).Groups, rs.Size = 0 ∧
        rs.Paths = (sortPaths (([fE1, fE2] : List FileObj).filter
          (fun f => decide (f.size = 0)))).map FileObj.FilePath :=
  C4_empty_files.2.2.1 true optsW [fE1, fE2] rfl (by decide)

/-! ### Dropping an unreadable file (claim C7) -/

/-- The comparison keys of `ByInodeLE` identify records uniquely within a
bucket (they do after hard-link filtering on the unix variant, and under
distinct paths on the fallback variant). -/
def BucketKeyInj (osH : Bool) (l : List FileObj) : Prop :=
  ∀ a ∈ l, ∀ b ∈ l, ByInodeLE osH a b = true → ByInodeLE osH b a = true → a = b

instance (osH : Bool) (l : List FileObj) : Decidable (BucketKeyInj osH l) := by
  unfold BucketKeyInj
  infer_instance

/-- Erasing one record from every bucket (only the buckets containing it
change). -/
def eraseInBuckets (u : FileObj) (gs : List (Nat × List FileObj)) :
    List (Nat × List FileObj) :=
  gs.map (fun p => (p.1, p.2.erase u))

theorem sortByInode_erase {osH : Bool} {l : List FileObj} {u : FileObj}
    (hanti : BucketKeyInj osH l) :
    sortByInode osH (l.erase u) = (sortByInode osH l).erase u := by
  by_cases hu : u ∈ l
  · refine sorted_perm_eq (ByInodeLE osH) ?_ ?_ ?_ ?_
    · intro a ha b hb h1 h2
      exact hanti a (List.erase_subset _ _ (mem_sortByInode.mp ha))
        b (List.erase_subset _ _ (mem_sortByInode.mp hb)) h1 h2
    · exact ((sortByInode_perm osH (l.erase u)).trans
        ((sortByInode_perm osH l).erase u).symm)
    · exact sortByInode_sorted osH (l.erase u)
    · exact List.Pairwise.sublist (List.erase_sublist u (sortByInode osH l))
        (sortByInode_sorted osH l)
  · rw [List.erase_of_not_mem hu,
      List.erase_of_not_mem (fun hc => hu (mem_sortByInode.mp hc))]

theorem findDupesFullCk_erase {osH : Bool} {l : List FileObj} {u : FileObj}
    (hfull : digestOf .fullChecksum u = none) (hanti : BucketKeyInj osH l) :
    findDupesFullCk osH false (l.erase u) = findDupesFullCk osH false l := by
  unfold findDupesFullCk
  rw [if_neg Bool.false_ne_true, if_neg Bool.false_ne_true]
  rw [sortByInode_erase hanti, groupsOf_erase hfull]

theorem findDupesPartCk_erase {osH : Bool} {l : List FileObj} {u : FileObj}
    (hpart : digestOf .partChecksum u = none) (hanti : BucketKeyInj osH l) :
    findDupesPartCk osH false (l.erase u) = findDupesPartCk osH false l := by
  unfold findDupesPartCk
  rw [if_neg Bool.false_ne_true, if_neg Bool.false_ne_true]
  rw [sortByInode_erase hanti, groupsOf_erase hpart]

theorem findDupesChecksums_erase {osH : Bool} {sType : sumType}
    {l : List FileObj} {u : FileObj}
    (hpart : digestOf .partChecksum u = none)
    (hfull : digestOf .fullChecksum u = none) (hanti : BucketKeyInj osH l) :
    findDupesChecksums osH sType false (l.erase u)
      = findDupesChecksums osH sType false l := by
  cases sType with
  | noChecksum => rfl
  | fullChecksum => exact findDupesFullCk_erase hfull hanti
  | partChecksum => exact findDupesPartCk_erase hpart hanti

theorem flatMap_congr {α β : Type} {f g : α → List β} :
    ∀ {L : List α}, (∀ x ∈ L, f x = g x) → L.flatMap f = L.flatMap g := by
  intro L
  induction L with
  | nil => intro _; rfl
  | cons x rest ih =>
    intro h
    rw [List.flatMap_cons, List.flatMap_cons, h x (List.mem_cons_self _ _),
      ih (fun y hy => h y (List.mem_cons_of_mem _ hy))]

theorem findDupes_eq (osH skipPartial : Bool)
    (gs : List (Nat × List FileObj)) :
    findDupes osH skipPartial gs =
      ((schedulePartition skipPartial gs).1.map Prod.snd).flatMap
          (fun l => findDupesChecksums osH .partChecksum false l)
        ++ ((schedulePartition skipPartial gs).2.map Prod.snd).flatMap
          (fun l => findDupesChecksums osH .fullChecksum false l) := rfl

theorem schedulePartition_eraseInBuckets (skipPartial : Bool) (u : FileObj)
    (gs : List (Nat × List FileObj)) :
    schedulePartition skipPartial (eraseInBuckets u gs)
      = ((schedulePartition skipPartial gs).1.map (fun p => (p.1, p.2.erase u)),
          (schedulePartition skipPartial gs).2.map
            (fun p => (p.1, p.2.erase u))) := by
  unfold schedulePartition eraseInBuckets
  rw [List.partition_eq_filter_filter, List.partition_eq_filter_filter]
  rw [List.filter_map, List.filter_map]
  constructor

theorem findDupes_eraseInBuckets {osH skipPartial : Bool}
    {gs : List (Nat × List FileObj)} {u : FileObj}
    (hpart : digestOf .partChecksum u = none)
    (hfull : digestOf .fullChecksum u = none)
    (hanti : ∀ p ∈ gs, BucketKeyInj osH p.2) :
    findDupes osH skipPartial (eraseInBuckets u gs)
      = findDupes osH skipPartial gs := by
  rw [findDupes_eq, findDupes_eq, schedulePartition_eraseInBuckets]
  show (((schedulePartition skipPartial gs).1.map
      (fun p => (p.1, p.2.erase u))).map Prod.snd).flatMap _
    ++ (((schedulePartition skipPartial gs).2.map
      (fun p => (p.1, p.2.erase u))).map Prod.snd).flatMap _ = _
  rw [List.map_map, List.map_map]
  have hcomp : (Prod.snd ∘ fun p : Nat × List FileObj => (p.1, p.2.erase u))
      = fun p : Nat × List FileObj => p.2.erase u := rfl
  rw [hcomp]
  congr 1
  · rw [show (fun p : Nat × List FileObj => p.2.erase u)
        = (fun l : List FileObj => l.erase u) ∘ Prod.snd from rfl]
    rw [← List.map_map]
    rw [List.flatMap_map]
    refine flatMap_congr ?_
    intro l hl
    obtain ⟨p, hp, rfl⟩ := List.mem_map.mp hl
    exact findDupesChecksums_erase hpart hfull
      (hanti p (schedulePartition_fst_subset hp))
  · rw [show (fun p : Nat × List FileObj => p.2.erase u)
        = (fun l : List FileObj => l.erase u) ∘ Prod.snd from rfl]
    rw [← List.map_map]
    rw [List.flatMap_map]
    refine flatMap_congr ?_
    intro l hl
    obtain ⟨p, hp, rfl⟩ := List.mem_map.mp hl
    exact findDupesChecksums_erase hpart hfull
      (hanti p (schedulePartition_snd_subset hp))

/-! ### Claim C7 -/

def fU : FileObj :=
  { FilePath := "u", size := 1, dev := 1, ino := 3, content := none }

/-- C7: a file whose content cannot be read during hashing is dropped alone:
(1) a file without a full digest (open failure, read error, or short read)
is a member of no emitted group, for the whole run — the digest is a pure
function of the run's file state, so no retry can resurrect it; (2) when
both of its digests fail, removing the file from its bucket leaves the
checksum stage's output exactly unchanged: the rest of the group and bucket
are processed as before (the run always completes: the engine is a total
function). -/
theorem C7_unreadable_file_dropped :
    (∀ (osH skipPartial : Bool) (gs : List (Nat × List FileObj))
        (u : FileObj) (g : List FileObj), u.Checksum = none →
        g ∈ findDupes osH skipPartial gs → u ∉ g) ∧
      (∀ (osH skipPartial : Bool) (gs : List (Nat × List FileObj))
          (u : FileObj),
          digestOf .partChecksum u = none → digestOf .fullChecksum u = none →
          (∀ p ∈ gs, BucketKeyInj osH p.2) →
          findDupes osH skipPartial (eraseInBuckets u gs)
            = findDupes osH skipPartial gs) := by
  constructor
  · intro osH skipPartial gs u g hu hg hmem
    obtain ⟨_, ⟨d, hd⟩, _⟩ := findDupes_mem hg
    have := hd u hmem
    rw [hu] at this
    cases this
  · intro osH skipPartial gs u hpart hfull hanti
    exact findDupes_eraseInBuckets hpart hfull hanti

/-- Witness for C7: a bucket of two identical readable files plus one
unreadable file; the unreadable file is not in the emitted group, and
erasing it leaves the output unchanged. -/
theorem C7_witness :
    fU ∉ ([fW1, fW2] : List FileObj) ∧
      findDupes true false (eraseInBuckets fU [(1, [fW1, fW2, fU])])
        = findDupes true false [(1, [fW1, fW2, fU])] := by
  constructor
  · exact C7_unreadable_file_dropped.1 true false [(1, [fW1, fW2, fU])] fU
      [fW1, fW2] (by rfl) (by decide)
  · exact C7_unreadable_file_dropped.2 true false [(1, [fW1, fW2, fU])] fU
      (by rfl) (by rfl) (by decide)

/-! ### Keys of the size-bucket map

`data.sizeGroups` is a Go map keyed by size: each size owns at most one
bucket.  In the association-list model this is key nodupness, preserved by
every stage of the pipeline. -/

theorem addToSizeGroups_keys (fo : FileObj) :
    ∀ gs : List (Nat × List FileObj),
      (addToSizeGroups gs fo).map Prod.fst =
        if fo.size ∈ gs.map Prod.fst then gs.map Prod.fst
        else gs.map Prod.fst ++ [fo.size] := by
  intro gs
  induction gs with
  | nil => simp [addToSizeGroups]
  | cons p rest ih =>
    obtain ⟨s, l⟩ := p
    rw [addToSizeGroups]
    by_cases hs : s = fo.size
    · subst hs
      rw [if_pos rfl, List.map_cons, List.map_cons,
        if_pos (List.mem_cons_self _ _)]
    · rw [if_neg hs, List.map_cons, List.map_cons, ih]
      by_cases hmem : fo.size ∈ rest.map Prod.fst
      · rw [if_pos hmem, if_pos (show fo.size ∈ (s, l).1 :: rest.map Prod.fst
          from List.mem_cons_of_mem _ hmem)]
      · have hns : fo.size ∉ (s, l).1 :: rest.map Prod.fst := by
          intro hc
          rcases List.mem_cons.mp hc with hc | hc
          · exact hs hc.symm
          · exact hmem hc
        rw [if_neg hmem, if_neg hns, List.cons_append]

/-- The size-bucket map has one bucket per size. -/
theorem groupBySize_keys_nodup (records : List FileObj) :
    ((groupBySize records).map Prod.fst).Nodup := by
  rw [groupBySize]
  have main : ∀ (todo : List FileObj) (acc : List (Nat × List FileObj)),
      (acc.map Prod.fst).Nodup →
      ((todo.foldl addToSizeGroups acc).map Prod.fst).Nodup := by
    intro todo
    induction todo with
    | nil => intro acc h; exact h
    | cons x rest ih =>
      intro acc h
      rw [List.foldl_cons]
      refine ih _ ?_
      rw [addToSizeGroups_keys]
      by_cases hmem : x.size ∈ acc.map Prod.fst
      · rw [if_pos hmem]; exact h
      · rw [if_neg hmem, List.nodup_append]
        refine ⟨h, List.nodup_singleton _, ?_⟩
        intro y hy hy2
        rw [List.mem_singleton] at hy2
        subst hy2
        exact hmem hy
  exact main records [] (by simp)

theorem dropEmptyFiles_rest_keys {ie : Bool} {gs : List (Nat × List FileObj)} :
    ((dropEmptyFiles ie gs).2.1.map Prod.fst).Sublist (gs.map Prod.fst) := by
  cases h : gs.lookup 0 with
  | none => rw [dropEmptyFiles_eq_none h]
  | some l =>
    rw [dropEmptyFiles_eq_some h]
    have hsub : ((removeKey 0 gs).map Prod.fst).Sublist (gs.map Prod.fst) :=
      List.Sublist.map Prod.fst (List.filter_sublist gs)
    cases ie with
    | false => rw [if_pos (show (!false) = true from rfl)]; exact hsub
    | true => rw [if_neg (show ¬ (!true) = true by decide)]; exact hsub

theorem initialCleanup_keys_sublist (osH : Bool) :
    ∀ gs : List (Nat × List FileObj),
      ((initialCleanup osH gs).1.map Prod.fst).Sublist (gs.map Prod.fst) := by
  intro gs
  induction gs with
  | nil => exact List.Sublist.refl _
  | cons q rest ih =>
    obtain ⟨s, l⟩ := q
    rw [initialCleanup]
    by_cases hl : l.length < 2
    · rw [if_pos hl, List.map_cons]
      exact List.Sublist.cons _ ih
    · rw [if_neg hl]
      cases osH with
      | false =>
        rw [if_pos (show (!false) = true from rfl), List.map_cons,
          List.map_cons]
        exact List.Sublist.cons₂ _ ih
      | true =>
        rw [if_neg (show ¬ (!true) = true by decide)]
        by_cases hc : 0 < (removeHardLinks true l).2 ∧
            (removeHardLinks true l).1.length < 2
        · rw [if_pos hc, List.map_cons]
          exact List.Sublist.cons _ ih
        · rw [if_neg hc, List.map_cons, List.map_cons]
          exact List.Sublist.cons₂ _ ih

/-- An association list with distinct keys whose entries hold only records
of their own size has pairwise-disjoint buckets. -/
theorem buckets_pairwise_disjoint {gs : List (Nat × List FileObj)}
    (hkeys : (gs.map Prod.fst).Nodup)
    (hsz : ∀ p ∈ gs, ∀ f ∈ p.2, f.size = p.1) :
    gs.Pairwise (fun p q => ∀ f, f ∈ p.2 → f ∈ q.2 → False) := by
  have hne : gs.Pairwise (fun p q => p.1 ≠ q.1) := List.pairwise_map.mp hkeys
  refine List.Pairwise.imp_of_mem ?_ hne
  intro p q hp hq hne1 f hfp hfq
  exact hne1 ((hsz p hp f hfp).symm.trans (hsz q hq f hfq))

/-- Every record of a post-cleanup bucket is a walked record of the
bucket's size. -/
theorem cleanedBuckets_mem {osH ie : Bool} {records : List FileObj} :
    ∀ p ∈ (initialCleanup osH (dropEmptyFiles ie (groupBySize records)).2.1).1,
      ∀ f ∈ p.2, f ∈ records ∧ f.size = p.1 := by
  intro p hp f hf
  obtain ⟨l, hl, hsub⟩ := initialCleanup_mem _ p hp
  exact groupBySize_mem (p.1, l) (dropEmptyFiles_rest _ hl).1 f (hsub.subset hf)

theorem cleanedBuckets_keys_nodup (osH ie : Bool) (records : List FileObj) :
    (((initialCleanup osH
        (dropEmptyFiles ie (groupBySize records)).2.1).1).map
          Prod.fst).Nodup :=
  List.Nodup.sublist
    ((initialCleanup_keys_sublist osH _).trans dropEmptyFiles_rest_keys)
    (groupBySize_keys_nodup records)

theorem cleanedBuckets_pairwise_disjoint (osH ie : Bool)
    (records : List FileObj) :
    ((initialCleanup osH
        (dropEmptyFiles ie (groupBySize records)).2.1).1).Pairwise
      (fun p q => ∀ f, f ∈ p.2 → f ∈ q.2 → False) :=
  buckets_pairwise_disjoint (cleanedBuckets_keys_nodup osH ie records)
    (fun p hp f hf => (cleanedBuckets_mem p hp f hf).2)

/-! ### Disjointness of the emitted groups -/

/-- Collecting pairwise-disjoint group families over carriers that are
themselves pairwise disjoint yields a pairwise-disjoint family. -/
theorem pairwise_disjoint_flatMap {α : Type} (C : α → List FileObj)
    {F : α → List (List FileObj)} :
    ∀ {sgs : List α},
      sgs.Pairwise (fun a b => ∀ f, f ∈ C a → f ∈ C b → False) →
      (∀ sg ∈ sgs, (F sg).Pairwise (fun a b => ∀ f, f ∈ a → f ∈ b → False)) →
      (∀ sg ∈ sgs, ∀ g ∈ F sg, ∀ f ∈ g, f ∈ C sg) →
      (sgs.flatMap F).Pairwise (fun a b => ∀ f, f ∈ a → f ∈ b → False) := by
  intro sgs
  induction sgs with
  | nil =>
    intro _ _ _
    simp
  | cons s rest ih =>
    intro h1 h2 h3
    rw [List.flatMap_cons, List.pairwise_append]
    refine ⟨h2 s (List.mem_cons_self _ _),
      ih (List.pairwise_cons.mp h1).2
        (fun sg hsg => h2 sg (List.mem_cons_of_mem _ hsg))
        (fun sg hsg => h3 sg (List.mem_cons_of_mem _ hsg)), ?_⟩
    intro g1 hg1 g2 hg2 f hf1 hf2
    obtain ⟨t, ht, hg2'⟩ := List.mem_flatMap.mp hg2
    exact (List.pairwise_cons.mp h1).1 t ht f
      (h3 s (List.mem_cons_self _ _) g1 hg1 f hf1)
      (h3 t (List.mem_cons_of_mem _ ht) g2 hg2' f hf2)

theorem findDupesFullCk_pairwise_disjoint (osH : Bool) (l : List FileObj) :
    (findDupesFullCk osH false l).Pairwise
      (fun a b => ∀ f, f ∈ a → f ∈ b → False) := by
  unfold findDupesFullCk
  rw [if_neg Bool.false_ne_true]
  exact List.Pairwise.sublist (List.filter_sublist _)
    (groupsOf_pairwise_disjoint _ _)

theorem findDupesPartCk_pairwise_disjoint (osH : Bool) (l : List FileObj) :
    (findDupesPartCk osH false l).Pairwise
      (fun a b => ∀ f, f ∈ a → f ∈ b → False) := by
  unfold findDupesPartCk
  rw [if_neg Bool.false_ne_true]
  refine pairwise_disjoint_flatMap (fun sg => sg) ?_ ?_ ?_
  · exact List.Pairwise.sublist (List.filter_sublist _)
      (groupsOf_pairwise_disjoint _ _)
  · intro sg _
    exact findDupesFullCk_pairwise_disjoint osH sg
  · intro sg _ g hg f hf
    exact (findDupesFullCk_mem hg).2.2 f hf

theorem findDupesChecksums_pairwise_disjoint (osH : Bool) (sType : sumType)
    (l : List FileObj) :
    (findDupesChecksums osH sType false l).Pairwise
      (fun a b => ∀ f, f ∈ a → f ∈ b → False) := by
  cases sType with
  | noChecksum => simp [findDupesChecksums]
  | fullChecksum => exact findDupesFullCk_pairwise_disjoint osH l
  | partChecksum => exact findDupesPartCk_pairwise_disjoint osH l

theorem schedulePartition_fst_eq (skipPartial : Bool)
    (gs : List (Nat × List FileObj)) :
    (schedulePartition skipPartial gs).1
      = gs.filter (fun p => usePartCk skipPartial p.1) := by
  unfold schedulePartition
  rw [List.partition_eq_filter_filter]

theorem schedulePartition_snd_eq (skipPartial : Bool)
    (gs : List (Nat × List FileObj)) :
    (schedulePartition skipPartial gs).2
      = gs.filter (fun p => !usePartCk skipPartial p.1) := by
  unfold schedulePartition
  rw [List.partition_eq_filter_filter]
  rfl

/-- The checksum stage emits pairwise-disjoint groups whenever its input
buckets are pairwise disjoint. -/
theorem findDupes_pairwise_disjoint {osH skipPartial : Bool}
    {gs : List (Nat × List FileObj)}
    (hdisj : gs.Pairwise (fun p q => ∀ f, f ∈ p.2 → f ∈ q.2 → False)) :
    (findDupes osH skipPartial gs).Pairwise
      (fun a b => ∀ f, f ∈ a → f ∈ b → False) := by
  have hsym : Symmetric (fun p q : Nat × List FileObj =>
      ∀ f, f ∈ p.2 → f ∈ q.2 → False) := fun p q h f h1 h2 => h f h2 h1
  have hall := hdisj.forall hsym
  rw [findDupes_eq, schedulePartition_fst_eq, schedulePartition_snd_eq,
    List.flatMap_map, List.flatMap_map, List.pairwise_append]
  refine ⟨?_, ?_, ?_⟩
  · refine pairwise_disjoint_flatMap Prod.snd ?_ ?_ ?_
    · exact List.Pairwise.sublist (List.filter_sublist _) hdisj
    · intro p _
      exact findDupesChecksums_pairwise_disjoint osH .partChecksum p.2
    · intro p _ g hg f hf
      exact (findDupesChecksums_mem hg).2.2 f hf
  · refine pairwise_disjoint_flatMap Prod.snd ?_ ?_ ?_
    · exact List.Pairwise.sublist (List.filter_sublist _) hdisj
    · intro p _
      exact findDupesChecksums_pairwise_disjoint osH .fullChecksum p.2
    · intro p _ g hg f hf
      exact (findDupesChecksums_mem hg).2.2 f hf
  · intro g1 hg1 g2 hg2 f hf1 hf2
    obtain ⟨p, hp, hg1'⟩ := List.mem_flatMap.mp hg1
    obtain ⟨q, hq, hg2'⟩ := List.mem_flatMap.mp hg2
    have hpg := List.mem_filter.mp hp
    have hqg := List.mem_filter.mp hq
    have hpq : p ≠ q := by
      intro hc
      have h1 := hpg.2
      have h2 := hqg.2
      rw [hc] at h1
      rw [h1] at h2
      simp at h2
    exact hall hpg.1 hqg.1 hpq f
      ((findDupesChecksums_mem hg1').2.2 f hf1)
      ((findDupesChecksums_mem hg2').2.2 f hf2)

/-- The final group list of a run is pairwise disjoint: no record is
reported in two groups. -/
theorem dupeGroups_pairwise_disjoint (osH : Bool) (opts : Options)
    (records : List FileObj) :
    (dupeGroups osH opts records).Pairwise
      (fun a b => ∀ f, f ∈ a → f ∈ b → False) := by
  rw [dupeGroups_eq, List.pairwise_append]
  refine ⟨?_, ?_, ?_⟩
  · by_cases hc : 0 <
        (dropEmptyFiles opts.IgnoreEmpty (groupBySize records)).1.length
    · rw [if_pos hc]
      refine List.Pairwise.cons ?_ List.Pairwise.nil
      intro b hb
      cases hb
    · rw [if_neg hc]
      exact List.Pairwise.nil
  · exact findDupes_pairwise_disjoint
      (cleanedBuckets_pairwise_disjoint osH opts.IgnoreEmpty records)
  · intro e he g hg f hfe hfg
    have he' : e = (dropEmptyFiles opts.IgnoreEmpty (groupBySize records)).1 := by
      by_cases hc : 0 <
          (dropEmptyFiles opts.IgnoreEmpty (groupBySize records)).1.length
      · rw [if_pos hc] at he
        exact List.mem_singleton.mp he
      · rw [if_neg hc] at he
        cases he
    subst he'
    obtain ⟨l0, hl0, hfl0, _, _, _⟩ := dropEmptyFiles_empties f hfe
    exact findDupes_size_ne_zero hg f hfg (groupBySize_mem (0, l0) hl0 f hfl0).2

/-- No emitted group is empty. -/
theorem dupeGroups_ne_nil {osH : Bool} {opts : Options}
    {records : List FileObj} {g : List FileObj}
    (hg : g ∈ dupeGroups osH opts records) : g ≠ [] := by
  rw [dupeGroups_eq, List.mem_append] at hg
  rcases hg with hg | hg
  · by_cases hc : 0 <
        (dropEmptyFiles opts.IgnoreEmpty (groupBySize records)).1.length
    · rw [if_pos hc] at hg
      rcases List.mem_singleton.mp hg with rfl
      intro hnil
      rw [hnil] at hc
      simp at hc
    · rw [if_neg hc] at hg
      cases hg
  · obtain ⟨hlen, _, _⟩ := findDupes_mem hg
    intro hnil
    rw [hnil] at hlen
    simp at hlen

/-- Every member of an emitted group is a walked record. -/
theorem dupeGroups_subset_records {osH : Bool} {opts : Options}
    {records : List FileObj} {g : List FileObj}
    (hg : g ∈ dupeGroups osH opts records) : ∀ fo ∈ g, fo ∈ records := by
  intro fo hfo
  rcases dupeGroups_mem hg fo hfo with h | ⟨p, hp, hfp⟩
  · obtain ⟨l, hl, hfl, _⟩ := dropEmptyFiles_empties fo h
    exact (groupBySize_mem (0, l) hl fo hfl).1
  · exact (cleanedBuckets_mem p hp fo hfp).1

/-! ### Sortedness of the assembled output and order-independence -/

theorem sortPaths_sorted (g : List FileObj) :
    (sortPaths g).Pairwise (fun a b => byFilePathNameLE a b = true) := by
  haveI : IsTotal FileObj (fun a b => byFilePathNameLE a b = true) :=
    ⟨byFilePathNameLE_total⟩
  haveI : IsTrans FileObj (fun a b => byFilePathNameLE a b = true) :=
    ⟨fun _ _ _ => byFilePathNameLE_trans⟩
  exact List.sorted_insertionSort _ g

theorem sortGroups_sorted (result : List (List FileObj)) :
    (sortGroups result).Pairwise
      (fun g1 g2 => byGroupFileSizeLE g1 g2 = true) := by
  haveI : IsTotal (List FileObj) (fun g1 g2 => byGroupFileSizeLE g1 g2 = true) :=
    ⟨byGroupFileSizeLE_total⟩
  haveI : IsTrans (List FileObj) (fun g1 g2 => byGroupFileSizeLE g1 g2 = true) :=
    ⟨fun _ _ _ => byGroupFileSizeLE_trans⟩
  exact List.sorted_insertionSort _ _

/-- The group sort is insensitive to the order its input groups arrive in,
provided the comparison keys of the (path-sorted) groups are injective on
them: any permutation of the group list sorts to the same list. -/
theorem sortGroups_perm {gs1 gs2 : List (List FileObj)}
    (hperm : gs1.Perm gs2)
    (hanti : ∀ a ∈ gs2.map sortPaths, ∀ b ∈ gs2.map sortPaths,
      byGroupFileSizeLE a b = true → byGroupFileSizeLE b a = true → a = b) :
    sortGroups gs1 = sortGroups gs2 := by
  refine sorted_perm_eq byGroupFileSizeLE ?_ ?_ ?_ ?_
  · intro a ha b hb
    refine hanti a ?_ b ?_
    · exact (hperm.map sortPaths).subset
        ((List.perm_insertionSort _ _).subset ha)
    · exact (hperm.map sortPaths).subset
        ((List.perm_insertionSort _ _).subset hb)
  · refine ((List.perm_insertionSort _ _).trans ?_).trans
      (List.perm_insertionSort _ _).symm
    exact hperm.map sortPaths
  · exact sortGroups_sorted gs1
  · exact sortGroups_sorted gs2

/-- Result assembly is insensitive to the arrival order of the groups. -/
theorem assembleResults_perm {cmpt : Nat} {gs1 gs2 : List (List FileObj)}
    (hperm : gs1.Perm gs2)
    (hanti : ∀ a ∈ gs2.map sortPaths, ∀ b ∈ gs2.map sortPaths,
      byGroupFileSizeLE a b = true → byGroupFileSizeLE b a = true → a = b) :
    assembleResults cmpt gs1 = assembleResults cmpt gs2 := by
  unfold assembleResults
  rw [sortGroups_perm hperm hanti]

theorem sortPaths_ne_nil {g : List FileObj} (h : g ≠ []) :
    sortPaths g ≠ [] := by
  intro hc
  have hlen : g.length = 0 := by
    rw [← (List.perm_insertionSort
      (fun a b => byFilePathNameLE a b = true) g).length_eq]
    rw [show List.insertionSort (fun a b => byFilePathNameLE a b = true) g
      = sortPaths g from rfl, hc]
    rfl
  exact h (List.length_eq_zero.mp hlen)

/-- Under distinct paths, the sort keys of the emitted (path-sorted) groups
are injective: the key is the first member's (size, path), the path pins
down the member, and distinct groups share no member. -/
theorem dupeGroups_key_inj (osH : Bool) (opts : Options)
    (records : List FileObj)
    (hnodup : (records.map FileObj.FilePath).Nodup) :
    ∀ a ∈ (dupeGroups osH opts records).map sortPaths,
      ∀ b ∈ (dupeGroups osH opts records).map sortPaths,
        byGroupFileSizeLE a b = true → byGroupFileSizeLE b a = true →
          a = b := by
  intro a ha b hb h1 h2
  obtain ⟨ga, hga, rfl⟩ := List.mem_map.mp ha
  obtain ⟨gb, hgb, rfl⟩ := List.mem_map.mp hb
  have hkey := byGroupFileSizeLE_antisymm_key h1 h2
  by_cases hgg : ga = gb
  · rw [hgg]
  · exfalso
    cases hsa : sortPaths ga with
    | nil => exact sortPaths_ne_nil (dupeGroups_ne_nil hga) hsa
    | cons fa ta =>
      cases hsb : sortPaths gb with
      | nil => exact sortPaths_ne_nil (dupeGroups_ne_nil hgb) hsb
      | cons fb tb =>
        rw [hsa, hsb] at hkey
        have hkey' : (fa.size, fa.FilePath) = (fb.size, fb.FilePath) := hkey
        have hpath : fa.FilePath = fb.FilePath := congrArg Prod.snd hkey'
        have hfa : fa ∈ ga := by
          refine mem_sortPaths.mp ?_
          rw [hsa]
          exact List.mem_cons_self _ _
        have hfb : fb ∈ gb := by
          refine mem_sortPaths.mp ?_
          rw [hsb]
          exact List.mem_cons_self _ _
        have hfafb : fa = fb := List.inj_on_of_nodup_map hnodup
          (dupeGroups_subset_records hga fa hfa)
          (dupeGroups_subset_records hgb fb hfb) hpath
        have hsym : Symmetric (fun g1 g2 : List FileObj =>
            ∀ f, f ∈ g1 → f ∈ g2 → False) :=
          fun x y h f hx hy => h f hy hx
        exact (dupeGroups_pairwise_disjoint osH opts records).forall
          hsym hga hgb hgg fa hfa (hfafb.symm ▸ hfb)

/-- Within every reported group the paths are sorted by `strLE`. -/
theorem dufFrom_paths_sorted {osH : Bool} {opts : Options}
    {records : List FileObj} {rs : ResultSet}
    (h : rs ∈ (dufFrom osH opts records).Groups) :
    rs.Paths.Pairwise (fun p1 p2 => strLE p1 p2 = true) := by
  obtain ⟨g, _, _, hpaths, _⟩ := dufFrom_group_sizes h
  rw [hpaths, List.pairwise_map]
  refine List.Pairwise.imp ?_ (sortPaths_sorted g)
  intro a b hab
  exact hab

/-- The reported groups are sorted by size, ties broken by the first
(lexicographically smallest) member path. -/
theorem dufFrom_groups_sorted (osH : Bool) (opts : Options)
    (records : List FileObj) :
    (dufFrom osH opts records).Groups.Pairwise (fun r1 r2 =>
      r1.Size < r2.Size ∨ (r1.Size = r2.Size ∧
        strLE (r1.Paths.headD ("")) (r2.Paths.headD ("")) = true)) := by
  have hG := (assembleResults_fields records.length
    (dupeGroups osH opts records)).1
  rw [show (dufFrom osH opts records).Groups
      = (assembleResults records.length (dupeGroups osH opts records)).Groups
      from rfl, hG, resultSets]
  refine List.Pairwise.filterMap resultSet1 ?_ (sortGroups_sorted _)
  intro a a' hle rs hrs rs' hrs'
  rw [Option.mem_def] at hrs hrs'
  cases a with
  | nil =>
    rw [show resultSet1 [] = none from rfl] at hrs
    cases hrs
  | cons f t =>
    cases a' with
    | nil =>
      rw [show resultSet1 [] = none from rfl] at hrs'
      cases hrs'
    | cons f' t' =>
      rw [show resultSet1 (f :: t) = some
        { Size := f.size, Paths := (f :: t).map FileObj.FilePath }
        from rfl] at hrs
      rw [show resultSet1 (f' :: t') = some
        { Size := f'.size, Paths := (f' :: t').map FileObj.FilePath }
        from rfl] at hrs'
      injection hrs with hrs
      injection hrs' with hrs'
      subst hrs
      subst hrs'
      by_cases hsz : (groupKey (f :: t)).1 = (groupKey (f' :: t')).1
      · rw [byGroupFileSizeLE, if_pos hsz] at hle
        right
        exact ⟨hsz, hle⟩
      · rw [byGroupFileSizeLE, if_neg hsz, decide_eq_true_eq] at hle
        left
        exact Nat.lt_of_le_of_ne hle hsz

/-! ### Claim C5 -/

/-- C5: for every input file set with distinct paths, the output is
deterministic and independent of the iteration order of the internal maps:
(1) assembling the results from ANY permutation of the duplicate-group list
(the canonical order stands in for one arbitrary map-iteration order)
yields exactly the run's `Results` — same groups, same member sets, same
order and counters; (2) within each reported group the member paths are
sorted lexicographically; (3) the groups are sorted by ascending size,
ties broken by the lexicographically smallest (first) member path. -/
theorem C5_deterministic_output (osH : Bool) (opts : Options)
    (records : List FileObj)
    (hnodup : (records.map FileObj.FilePath).Nodup) :
    (∀ gs : List (List FileObj), gs.Perm (dupeGroups osH opts records) →
        assembleResults records.length gs = dufFrom osH opts records) ∧
      (∀ rs ∈ (dufFrom osH opts records).Groups,
        rs.Paths.Pairwise (fun p1 p2 => strLE p1 p2 = true)) ∧
      (dufFrom osH opts records).Groups.Pairwise (fun r1 r2 =>
        r1.Size < r2.Size ∨ (r1.Size = r2.Size ∧
          strLE (r1.Paths.headD ("")) (r2.Paths.headD ("")) = true)) := by
  refine ⟨?_, fun rs hrs => dufFrom_paths_sorted hrs,
    dufFrom_groups_sorted osH opts records⟩
  intro gs hperm
  exact assembleResults_perm hperm
    (dupeGroups_key_inj osH opts records hnodup)

/-- Witness for C5: four records forming two duplicate groups; feeding the
group list to the assembler in reversed order still produces the run's
exact `Results`. -/
theorem C5_witness :
    (([f100a, f100b, fW1, fW2].map FileObj.FilePath).Nodup ∧
        ([[fW1, fW2], [f100a, f100b]] : List (List FileObj)).Perm
          (dupeGroups true optsW [f100a, f100b, fW1, fW2])) ∧
      assembleResults 4 [[fW1, fW2], [f100a, f100b]]
        = dufFrom true optsW [f100a, f100b, fW1, fW2] := by
  refine ⟨⟨by decide, by decide⟩, ?_⟩
  exact (C5_deterministic_output true optsW [f100a, f100b, fW1, fW2]
    (by decide)).1 [[fW1, fW2], [f100a, f100b]] (by decide)

/-! ### Skip-partial refinement: the partial stage is a pure heuristic -/

theorem Checksum_eq (f : FileObj) :
    f.Checksum = match f.content with
      | none => none
      | some bs => if bs.length = f.size then some bs else none := rfl

theorem partChecksum_eq (f : FileObj) :
    f.partChecksum = match f.content with
      | none => none
      | some bs => if medsumBytes ≤ bs.length then
          some (bs.take medsumBytes ++ bs.drop (bs.length - medsumBytes))
        else none := rfl

/-- A computable full digest of a sufficiently large file pins down its
partial digest: the partial digest is a function of the content bytes. -/
theorem partCk_of_full {f : FileObj} {bs : List Nat}
    (h : f.Checksum = some bs) (hlen : medsumBytes ≤ f.size) :
    f.partChecksum
      = some (bs.take medsumBytes ++ bs.drop (bs.length - medsumBytes)) := by
  rw [Checksum_eq] at h
  cases hc : f.content with
  | none =>
    rw [hc] at h
    exact Option.noConfusion h
  | some c =>
    rw [hc] at h
    have h' : (if c.length = f.size then some c else none) = some bs := h
    by_cases hl : c.length = f.size
    · rw [if_pos hl] at h'
      injection h' with h'
      subst h'
      rw [partChecksum_eq, hc]
      show (if medsumBytes ≤ c.length then
          some (c.take medsumBytes ++ c.drop (c.length - medsumBytes))
        else none) = _
      rw [if_pos (by omega)]
    · rw [if_neg hl] at h'
      exact Option.noConfusion h'

/-- A pairwise-disjoint list of nonempty groups has no duplicate entry. -/
theorem nodup_of_disjoint_nonempty {gs : List (List FileObj)}
    (hdisj : gs.Pairwise (fun a b => ∀ f, f ∈ a → f ∈ b → False))
    (hne : ∀ g ∈ gs, g ≠ []) : gs.Nodup := by
  show gs.Pairwise (fun a b => a ≠ b)
  refine List.Pairwise.imp_of_mem ?_ hdisj
  intro a b ha _ hab haeq
  cases hx : a with
  | nil => exact hne a ha hx
  | cons x t =>
    refine hab x ?_ ?_
    · rw [hx]
      exact List.mem_cons_self _ _
    · rw [← haeq, hx]
      exact List.mem_cons_self _ _

/-- Filtering by a predicate that implies the outer one first does not
change the outer filter. -/
theorem filter_absorb {p q : FileObj → Bool} {l : List FileObj}
    (h : ∀ f ∈ l, q f = true → p f = true) :
    (l.filter p).filter q = l.filter q := by
  rw [List.filter_filter]
  refine List.filter_congr ?_
  intro f hf
  by_cases hq : q f = true
  · rw [hq, h f hf hq, Bool.and_true]
  · have hq' : q f = false := by
      cases hqf : q f with
      | false => rfl
      | true => exact absurd hqf hq
    rw [hq', Bool.false_and]

theorem flatMap_perm_congr {α β : Type} {f g : α → List β} :
    ∀ {L : List α}, (∀ x ∈ L, (f x).Perm (g x)) →
      (L.flatMap f).Perm (L.flatMap g) := by
  intro L
  induction L with
  | nil => intro _; exact List.Perm.refl _
  | cons x rest ih =>
    intro h
    rw [List.flatMap_cons, List.flatMap_cons]
    exact List.Perm.append (h x (List.mem_cons_self _ _))
      (ih (fun y hy => h y (List.mem_cons_of_mem _ hy)))

/-- When every file of the bucket is readable (has a full digest) and is
large enough for a partial digest, the partial-then-full cascade emits
exactly the groups of a direct full pass, up to order. -/
theorem findDupesPartCk_perm_fullCk (osH : Bool) {l : List FileObj}
    (hmed : ∀ f ∈ l, medsumBytes ≤ f.size) :
    (findDupesPartCk osH false l).Perm (findDupesFullCk osH false l) := by
  have hmed' : ∀ f ∈ sortByInode osH l, medsumBytes ≤ f.size :=
    fun f hf => hmed f (mem_sortByInode.mp hf)
  have hnodupP := nodup_of_disjoint_nonempty
    (findDupesPartCk_pairwise_disjoint osH l)
    (fun g hg => by
      have h2 := (findDupesPartCk_mem hg).1
      intro hc
      rw [hc] at h2
      simp at h2)
  have hnodupF := nodup_of_disjoint_nonempty
    (findDupesFullCk_pairwise_disjoint osH l)
    (fun g hg => by
      have h2 := (findDupesFullCk_mem hg).1
      intro hc
      rw [hc] at h2
      simp at h2)
  have himp : ∀ d : List Nat, ∀ f ∈ sortByInode osH l,
      (digestOf .fullChecksum f == some d) = true →
      (digestOf .partChecksum f
        == some (d.take medsumBytes ++ d.drop (d.length - medsumBytes)))
        = true := by
    intro d f hf hfd
    rw [beq_iff_eq] at hfd
    rw [beq_iff_eq]
    show f.partChecksum = _
    exact partCk_of_full hfd (hmed' f hf)
  have habs : ∀ d : List Nat,
      (((sortByInode osH l).filter (fun f => digestOf .partChecksum f
          == some (d.take medsumBytes
            ++ d.drop (d.length - medsumBytes)))).filter
        (fun f => digestOf .fullChecksum f == some d))
      = (sortByInode osH l).filter
          (fun f => digestOf .fullChecksum f == some d) :=
    fun d => filter_absorb (himp d)
  have hPeq : findDupesPartCk osH false l
      = ((groupsOf .partChecksum (sortByInode osH l)).filter
          (fun sg => decide (2 ≤ sg.length))).flatMap
        (fun sg => findDupesFullCk osH false sg) := by
    unfold findDupesPartCk
    rw [if_neg Bool.false_ne_true]
  have hFeq : findDupesFullCk osH false l
      = (groupsOf .fullChecksum (sortByInode osH l)).filter
          (fun sg => decide (2 ≤ sg.length)) := by
    unfold findDupesFullCk
    rw [if_neg Bool.false_ne_true]
  have hsgsort : ∀ sg ∈ groupsOf .partChecksum (sortByInode osH l),
      sortByInode osH sg = sg := by
    intro sg hsg
    refine sortByInode_of_sorted ?_
    exact List.Pairwise.sublist (groupsOf_sublist hsg)
      (sortByInode_sorted osH l)
  have hFeq2 : ∀ sg ∈ groupsOf .partChecksum (sortByInode osH l),
      findDupesFullCk osH false sg
        = (groupsOf .fullChecksum sg).filter
            (fun g => decide (2 ≤ g.length)) := by
    intro sg hsg
    unfold findDupesFullCk
    rw [if_neg Bool.false_ne_true, hsgsort sg hsg]
  rw [List.perm_ext_iff_of_nodup hnodupP hnodupF]
  intro g
  constructor
  · intro hg
    rw [hPeq, List.mem_flatMap] at hg
    obtain ⟨sg, hsgF, hgin⟩ := hg
    rw [List.mem_filter] at hsgF
    obtain ⟨hsgG, _⟩ := hsgF
    rw [hFeq2 sg hsgG, List.mem_filter] at hgin
    obtain ⟨hgG, hgLen⟩ := hgin
    obtain ⟨d, ⟨fd, hfd_sg, hfd_d⟩, hgeq⟩ := groupsOf_mem_iff.mp hgG
    obtain ⟨e, ⟨fe, hfe_s, hfe_e⟩, hsgeq⟩ := groupsOf_mem_iff.mp hsgG
    have hfd_sorted : fd ∈ sortByInode osH l := by
      rw [hsgeq] at hfd_sg
      exact (List.mem_filter.mp hfd_sg).1
    have hfd_part : digestOf .partChecksum fd = some e := by
      rw [hsgeq] at hfd_sg
      have h2 := (List.mem_filter.mp hfd_sg).2
      rwa [beq_iff_eq] at h2
    have hfd_partFn : digestOf .partChecksum fd
        = some (d.take medsumBytes ++ d.drop (d.length - medsumBytes)) := by
      show fd.partChecksum = _
      exact partCk_of_full hfd_d (hmed' fd hfd_sorted)
    have he : e = d.take medsumBytes ++ d.drop (d.length - medsumBytes) := by
      rw [hfd_part] at hfd_partFn
      exact Option.some.inj hfd_partFn
    have hgeq' : g = (sortByInode osH l).filter
        (fun f => digestOf .fullChecksum f == some d) := by
      rw [hgeq, hsgeq, he, habs d]
    rw [hFeq, List.mem_filter]
    refine ⟨?_, hgLen⟩
    rw [hgeq']
    exact groupsOf_complete hfd_sorted hfd_d
  · intro hg
    rw [hFeq, List.mem_filter] at hg
    obtain ⟨hgG, hgLen⟩ := hg
    obtain ⟨d, ⟨fd, hfd_s, hfd_d⟩, hgeq⟩ := groupsOf_mem_iff.mp hgG
    have hfd_part : digestOf .partChecksum fd
        = some (d.take medsumBytes ++ d.drop (d.length - medsumBytes)) := by
      show fd.partChecksum = _
      exact partCk_of_full hfd_d (hmed' fd hfd_s)
    have hsgG : (sortByInode osH l).filter (fun f => digestOf .partChecksum f
        == some (d.take medsumBytes ++ d.drop (d.length - medsumBytes)))
        ∈ groupsOf .partChecksum (sortByInode osH l) :=
      groupsOf_complete hfd_s hfd_part
    rw [hPeq, List.mem_flatMap]
    refine ⟨(sortByInode osH l).filter (fun f => digestOf .partChecksum f
      == some (d.take medsumBytes ++ d.drop (d.length - medsumBytes))),
      ?_, ?_⟩
    · rw [List.mem_filter]
      refine ⟨hsgG, ?_⟩
      rw [decide_eq_true_eq]
      have hlen2 : 2 ≤ g.length := by
        have h2 := hgLen
        rwa [decide_eq_true_eq] at h2
      refine le_trans hlen2 ?_
      rw [hgeq, ← habs d]
      exact (List.filter_sublist _).length_le
    · rw [hFeq2 _ hsgG, List.mem_filter]
      refine ⟨?_, hgLen⟩
      rw [hgeq, ← habs d]
      refine groupsOf_complete ?_ hfd_d
      rw [List.mem_filter]
      refine ⟨hfd_s, ?_⟩
      rw [beq_iff_eq]
      exact hfd_part

/-- On buckets whose records all carry the bucket's (above-threshold where
scheduled) size, disabling the partial stage only permutes the emitted
group list. -/
theorem findDupes_skipPartial_perm {osH : Bool}
    {gs : List (Nat × List FileObj)}
    (hsz : ∀ p ∈ gs, ∀ f ∈ p.2, f.size = p.1) :
    (findDupes osH true gs).Perm (findDupes osH false gs) := by
  have htrue : findDupes osH true gs
      = gs.flatMap
          (fun a => findDupesChecksums osH .fullChecksum false a.2) := by
    rw [findDupes_eq, schedulePartition_fst_eq, schedulePartition_snd_eq]
    have h1 : gs.filter (fun p => usePartCk true p.1) = [] := by
      rw [List.filter_eq_nil_iff]
      intro p _
      rw [usePartCk]
      simp
    have h2 : gs.filter (fun p => !usePartCk true p.1) = gs := by
      rw [List.filter_eq_self]
      intro p _
      rw [usePartCk]
      simp
    rw [h1, h2, List.map_nil, List.flatMap_nil, List.nil_append,
      List.flatMap_map]
  have hfalse : (findDupes osH false gs).Perm
      (gs.flatMap
        (fun a => findDupesChecksums osH .fullChecksum false a.2)) := by
    rw [findDupes_eq, schedulePartition_fst_eq, schedulePartition_snd_eq,
      List.flatMap_map, List.flatMap_map]
    have hstep : ((gs.filter (fun p => usePartCk false p.1)).flatMap
        (fun a => findDupesChecksums osH .partChecksum false a.2)).Perm
      ((gs.filter (fun p => usePartCk false p.1)).flatMap
        (fun a => findDupesChecksums osH .fullChecksum false a.2)) := by
      refine flatMap_perm_congr ?_
      intro p hp
      obtain ⟨hpg, hpc⟩ := List.mem_filter.mp hp
      have hsz1 : minSizePartialChecksum < p.1 := by
        rw [usePartCk] at hpc
        simp at hpc
        exact hpc
      have hsz1' : 49152 < p.1 := hsz1
      show (findDupesPartCk osH false p.2).Perm (findDupesFullCk osH false p.2)
      refine findDupesPartCk_perm_fullCk osH ?_
      intro f hf
      rw [hsz p hpg f hf]
      show 128 ≤ p.1
      omega
    refine (hstep.append_right _).trans ?_
    rw [← List.flatMap_append]
    exact List.Perm.flatMap_right _ (List.filter_append_perm _ gs)
  rw [htrue]
  exact hfalse.symm

/-- Disabling the partial stage only permutes the run's group list. -/
theorem dupeGroups_skipPartial_perm (osH : Bool) (opts : Options)
    (records : List FileObj) :
    (dupeGroups osH { opts with SkipPartial := true } records).Perm
      (dupeGroups osH { opts with SkipPartial := false } records) := by
  rw [dupeGroups_eq, dupeGroups_eq]
  refine List.Perm.append (List.Perm.refl _) ?_
  refine findDupes_skipPartial_perm ?_
  intro p hp f hf
  exact (cleanedBuckets_mem p hp f hf).2

/-! ### Claim C9 -/

/-- C9: on an input whose reads all succeed (every record has a computable
full digest) and whose paths are distinct, running with skip-partial
enabled reports exactly the same duplicate groups as running with it
disabled: the group lists agree up to order (same groups, same member
sets), and the final `Results` — sorted groups and all counters — are
identical.  The partial stage is a pure filtering heuristic. -/
theorem C9_skip_partial_equivalent (osH : Bool) (opts : Options)
    (records : List FileObj)
    (hnodup : (records.map FileObj.FilePath).Nodup)
    (hread : ∀ f ∈ records, ∃ bs, f.Checksum = some bs) :
    (dupeGroups osH { opts with SkipPartial := true } records).Perm
        (dupeGroups osH { opts with SkipPartial := false } records) ∧
      dufFrom osH { opts with SkipPartial := true } records
        = dufFrom osH { opts with SkipPartial := false } records := by
  have hperm := dupeGroups_skipPartial_perm osH opts records
  refine ⟨hperm, ?_⟩
  show assembleResults records.length _ = assembleResults records.length _
  exact assembleResults_perm hperm
    (dupeGroups_key_inj osH { opts with SkipPartial := false } records hnodup)

/-- Witness for C9: two above-threshold readable files; the run with the
partial stage skipped returns the very same `Results`. -/
theorem C9_witness :
    dufFrom true { optsW with SkipPartial := true } [bigA, bigB]
      = dufFrom true { optsW with SkipPartial := false } [bigA, bigB] := by
  have hread : ∀ f ∈ ([bigA, bigB] : List FileObj),
      ∃ bs, f.Checksum = some bs := by
    intro f hf
    rcases List.mem_cons.mp hf with rfl | hf
    · exact ⟨contA, bigA_fullCk⟩
    · rcases List.mem_cons.mp hf with rfl | hf
      · exact ⟨contB, bigB_fullCk⟩
      · cases hf
  exact (C9_skip_partial_equivalent true optsW [bigA, bigB]
    (by decide) hread).2

/-! ### Walk-error behaviour -/

mutual

/-- No node of the tree fails `lstat`. -/
def FTree.noStatFail : FTree → Bool
  | .file _ => true
  | .special => true
  | .statFail => false
  | .dir _ children => noStatFailChildren children

def noStatFailChildren : List (String × FTree) → Bool
  | [] => true
  | (_, c) :: rest => c.noStatFail && noStatFailChildren rest

end

/-- The cons equation of the child loop for a child whose `lstat`
succeeds. -/
theorem walkChildren_cons_eq (st : WalkData) (path name : String)
    (c : FTree) (rest : List (String × FTree)) (hne : c ≠ FTree.statFail) :
    walkChildren st path ((name, c) :: rest)
      = (match (walkTree st (path ++ ("/") ++ name) c).2 with
        | WalkStep.ok =>
          walkChildren (walkTree st (path ++ ("/") ++ name) c).1 path rest
        | WalkStep.fail =>
          ((walkTree st (path ++ ("/") ++ name) c).1, WalkStep.fail)
        | WalkStep.skipDir =>
          if c.isDir = true then
            walkChildren (walkTree st (path ++ ("/") ++ name) c).1 path rest
          else ((walkTree st (path ++ ("/") ++ name) c).1,
            WalkStep.skipDir)) := by
  cases c with
  | file fo => rfl
  | special => rfl
  | dir r children => rfl
  | statFail => exact absurd rfl hne

mutual

/-- Without stat failures the subtree walk never returns an error. -/
theorem walkTree_no_fail : ∀ (st : WalkData) (path : String) (t : FTree),
    t.noStatFail = true → (walkTree st path t).2 ≠ WalkStep.fail
  | st, path, FTree.file fo, _ => by
    intro hc
    exact WalkStep.noConfusion hc
  | st, path, FTree.special, _ => by
    intro hc
    exact WalkStep.noConfusion hc
  | st, path, FTree.statFail, h => Bool.noConfusion h
  | st, path, FTree.dir r children, h => by
    rw [walkTree]
    cases r with
    | true =>
      rw [if_pos rfl]
      exact walkChildren_no_fail st path children h
    | false =>
      rw [if_neg Bool.false_ne_true]
      intro hc
      exact WalkStep.noConfusion hc

theorem walkChildren_no_fail : ∀ (st : WalkData) (path : String)
    (cs : List (String × FTree)), noStatFailChildren cs = true →
    (walkChildren st path cs).2 ≠ WalkStep.fail
  | st, path, [], _ => by
    intro hc
    exact WalkStep.noConfusion hc
  | st, path, (name, c) :: rest, h => by
    have h' : (FTree.noStatFail c && noStatFailChildren rest) = true := h
    rw [Bool.and_eq_true] at h'
    obtain ⟨hc1, hrest⟩ := h'
    cases c with
    | statFail => exact Bool.noConfusion hc1
    | file fo =>
      rw [walkChildren_cons_eq st path name (FTree.file fo) rest
        (fun hne => FTree.noConfusion hne)]
      cases hw : (walkTree st (path ++ ("/") ++ name) (FTree.file fo)).2 with
      | ok => exact walkChildren_no_fail _ path rest hrest
      | fail =>
        exact absurd hw (walkTree_no_fail st (path ++ ("/") ++ name)
          (FTree.file fo) rfl)
      | skipDir =>
        intro hc
        exact WalkStep.noConfusion hc
    | special =>
      rw [walkChildren_cons_eq st path name FTree.special rest
        (fun hne => FTree.noConfusion hne)]
      cases hw : (walkTree st (path ++ ("/") ++ name) FTree.special).2 with
      | ok => exact walkChildren_no_fail _ path rest hrest
      | fail =>
        exact absurd hw (walkTree_no_fail st (path ++ ("/") ++ name)
          FTree.special rfl)
      | skipDir =>
        intro hc
        exact WalkStep.noConfusion hc
    | dir r2 cs2 =>
      rw [walkChildren_cons_eq st path name (FTree.dir r2 cs2) rest
        (fun hne => FTree.noConfusion hne)]
      cases hw : (walkTree st (path ++ ("/") ++ name) (FTree.dir r2 cs2)).2 with
      | ok => exact walkChildren_no_fail _ path rest hrest
      | fail =>
        exact absurd hw (walkTree_no_fail st (path ++ ("/") ++ name)
          (FTree.dir r2 cs2) hc1)
      | skipDir => exact walkChildren_no_fail _ path rest hrest

end

theorem beq_fail_false {s : WalkStep} (h : s ≠ WalkStep.fail) :
    (s == WalkStep.fail) = false := by
  cases s with
  | ok => rfl
  | skipDir => rfl
  | fail => exact absurd rfl h

theorem Walk_no_fail (st : WalkData) (root : String) (t : FTree)
    (h : t.noStatFail = true) : (Walk st root t).2 = false := by
  have hne := walkTree_no_fail st root t h
  cases t with
  | statFail => exact Bool.noConfusion h
  | file fo => exact beq_fail_false hne
  | special => exact beq_fail_false hne
  | dir r children => exact beq_fail_false hne

theorem walkRoots_no_fail : ∀ (st : WalkData) (roots : List (String × FTree)),
    (∀ p ∈ roots, (p.2).noStatFail = true) → (walkRoots st roots).2 = false
  | _, [], _ => rfl
  | st, (root, t) :: rest, h => by
    have hW : (Walk st root t).2 = false :=
      Walk_no_fail st root t (h (root, t) (List.mem_cons_self _ _))
    have heq : walkRoots st ((root, t) :: rest)
        = if (Walk st root t).2 = true then ((Walk st root t).1, true)
          else walkRoots (Walk st root t).1 rest := rfl
    rw [heq, hW, if_neg Bool.false_ne_true]
    exact walkRoots_no_fail (Walk st root t).1 rest
      (fun p hp => h p (List.mem_cons_of_mem _ hp))

/-- The zero walk state `duf` starts from. -/
def st0 : WalkData :=
  { cmpt := 0, totalSize := 0, records := [], ignoreCount := 0 }

theorem duf_eq (osH : Bool) (opts : Options) (roots : List (String × FTree)) :
    duf osH opts roots =
      if (walkRoots st0 roots).2
      then Except.error ("could not read file tree")
      else Except.ok (dufCore osH opts (walkRoots st0 roots).1.records
        (walkRoots st0 roots).1.cmpt) := rfl

/-! ### Claim C8 -/

/-- Counterexample to C8: (1) an entry whose `lstat` fails aborts the whole
run — `visit` returns the error for a nil `FileInfo` (goduf.go:110-112),
`filepath.Walk` propagates it, and `duf` gives up with `could not read file
tree` (goduf.go:461-465), even though a readable sibling file was left to
scan; (2) the unreadable-directory branch of `visit` (goduf.go:113-116)
returns `SkipDir` without touching the state: the failing directory is NOT
counted (`ignoreCount` stays 3). -/
theorem C8_counterexample :
    duf true optsW [(("r" : String),
        FTree.dir true [(("c" : String), FTree.statFail),
          (("f" : String), FTree.file fW1)])]
      = Except.error ("could not read file tree") ∧
    visit { cmpt := 5, totalSize := 7, records := [fW1], ignoreCount := 3 }
        (some FInfo.dirInfo) true
      = ({ cmpt := 5, totalSize := 7, records := [fW1], ignoreCount := 3 },
          WalkStep.skipDir) :=
  ⟨rfl, rfl⟩

/-- C8 amended: traversal errors on *stat'able* entries do not abort the
run: (1) if no node of any root tree fails `lstat`, `duf` always completes
and reports results; (2) an unreadable directory is skipped as a whole —
the walk returns from it immediately with the state unchanged (its subtree
contributes nothing, and the failure is not counted in `ignoreCount`);
(3) the walk then continues with the directory's siblings exactly as if the
unreadable entry were absent.  (A failing `lstat`, by contrast, aborts the
run: see the counterexample.) -/
theorem C8_traversal_errors :
    (∀ (osH : Bool) (opts : Options) (roots : List (String × FTree)),
        (∀ p ∈ roots, (p.2).noStatFail = true) →
        ∃ res, duf osH opts roots = Except.ok res) ∧
      (∀ (st : WalkData) (path : String)
          (children : List (String × FTree)),
        walkTree st path (FTree.dir false children) = (st, WalkStep.skipDir)) ∧
      (∀ (st : WalkData) (path name : String)
          (cs rest : List (String × FTree)),
        walkChildren st path ((name, FTree.dir false cs) :: rest)
          = walkChildren st path rest) := by
  refine ⟨?_, ?_, ?_⟩
  · intro osH opts roots h
    refine ⟨dufCore osH opts (walkRoots st0 roots).1.records
      (walkRoots st0 roots).1.cmpt, ?_⟩
    rw [duf_eq, walkRoots_no_fail st0 roots h, if_neg Bool.false_ne_true]
  · intro st path children
    rfl
  · intro st path name cs rest
    rw [walkChildren_cons_eq st path name (FTree.dir false cs) rest
      (fun hne => FTree.noConfusion hne)]
    rw [show walkTree st (path ++ ("/") ++ name) (FTree.dir false cs)
      = (st, WalkStep.skipDir) from rfl]
    rfl

/-- Witness for C8: a root whose tree has no stat failure (one readable
directory with one regular file) makes the run complete with a result. -/
theorem C8_witness :
    (∀ p ∈ [(("r" : String),
        FTree.dir true [(("f" : String), FTree.file fW1)])],
      (Prod.snd p).noStatFail = true) ∧
      ∃ res, duf true optsW
        [(("r" : String), FTree.dir true [(("f" : String), FTree.file fW1)])]
        = Except.ok res := by
  refine ⟨by decide, ?_⟩
  exact C8_traversal_errors.1 true optsW
    [(("r" : String), FTree.dir true [(("f" : String), FTree.file fW1)])]
    (by decide)

end Goduf
